import Mathlib

/-!
Verification of `mc_world_merger.py`: the MCA region-file codec
(`McaFile.read_file` / `McaFile.write`), the chunk-merge engine
(`McaFile.merge` with the three `IMergeRule` variants), and the
file-pairing / confirmation glue in `RegionFinder.merge_dimension`.

Python byte strings and bytearrays are modelled as a length plus a
contents function (`ByteBuf`); indexing is bounds-checked exactly where
the Python code indexes (`pyGet`, raising = `Option.none`), and slicing
follows Python clamping semantics including negative indices (`pySlice`).
Python dicts (`chunk_map`, `chunk_data_list`) are modelled as
insertion-ordered association lists: assignment to an existing key keeps
its position, assignment to a fresh key appends.
-/

namespace McMerge

/-- A Python `bytes` / `bytearray`: a length and the byte at each index
`< size`. -/
structure ByteBuf where
  size : Nat
  data : Nat → Nat

/-- Python indexing `b[i]` with a nonnegative index: `IndexError` (here
`none`) when `i ≥ len(b)`. -/
def pyGet (b : ByteBuf) (i : Nat) : Option Nat :=
  if i < b.size then some (b.data i) else none

/-- Effective slice endpoint for a Python slice on a sequence of length
`n`: negative indices count from the end, and both ends clamp to
`[0, n]`. -/
def sliceIdx (n : Nat) (i : Int) : Nat :=
  if i < 0 then ((n : Int) + i).toNat else min i.toNat n

/-- Python slicing `b[s:e]` (never raises; clamps). -/
def pySlice (b : ByteBuf) (s e : Int) : ByteBuf :=
  { size := sliceIdx b.size e - sliceIdx b.size s
    data := fun k => b.data (sliceIdx b.size s + k) }

/-- The bytes of a buffer as a list. -/
def ByteBuf.toList (b : ByteBuf) : List Nat :=
  (List.range b.size).map b.data

/-- Build a buffer from a concrete list of bytes. -/
def ByteBuf.ofList (l : List Nat) : ByteBuf :=
  { size := l.length, data := fun i => l.getD i 0 }

/-- `Chunk(timestamp, location, size, chunk_data)`. -/
structure Chunk where
  timestamp : Nat
  location : Nat
  size : Nat
  chunk_data : List Nat
deriving DecidableEq, Repr

/-- The three `IMergeRule` subclasses. -/
inductive MergeRule
  | always
  | never
  | newestChunks
deriving DecidableEq, Repr

/-- `rule.is_allowed_to_merge(current_chunk, new_chunk)`. -/
def is_allowed_to_merge : MergeRule → Chunk → Chunk → Bool
  | .always, _, _ => true
  | .never, _, _ => false
  | .newestChunks, current_chunk, new_chunk =>
      decide (new_chunk.timestamp > current_chunk.timestamp)

/-- A `chunk_map`: Python dict from position key to `Chunk`, in insertion
order. -/
abbrev ChunkMap := List (Nat × Chunk)

/-- The body of the loop in `McaFile.merge` for one item `(pos, new_chunk)`
of `other.chunk_map`: a key already present in `self.chunk_map` is
overwritten in place (its dict position kept) when the rule allows; a
fresh key is appended. -/
def mergeStep (rule : MergeRule) (acc : ChunkMap) (e : Nat × Chunk) : ChunkMap :=
  match List.lookup e.1 acc with
  | some current_chunk =>
      if is_allowed_to_merge rule current_chunk e.2 then
        acc.map (fun p => if p.1 = e.1 then (e.1, e.2) else p)
      else acc
  | none => acc ++ [e]

/-- `McaFile.merge(self, other, rule)`: fold the loop body over
`other.chunk_map.items()`. -/
def merge (base : ChunkMap) (other : ChunkMap) (rule : MergeRule) : ChunkMap :=
  other.foldl (mergeStep rule) base

/-- The walk inside `McaFile.update_chunk_locations`: assign
`chunk.location = current_address` then `current_address += chunk.size`. -/
def assignLocs (addr : Nat) : ChunkMap → ChunkMap
  | [] => []
  | e :: rest => (e.1, { e.2 with location := addr }) :: assignLocs (addr + e.2.size) rest

/-- `McaFile.update_chunk_locations`: recompute every `chunk.location`
starting from sector address 2. -/
def update_chunk_locations (m : ChunkMap) : ChunkMap :=
  assignLocs 2 m

/-- The `while start <= end` loop of `McaFile.bytes_to_int`, recursing on
the remaining iteration count `e + 1 - start` (the loop runs exactly that
often). -/
def btiGo (arr : ByteBuf) (e : Nat) : Nat → Nat → Nat → Option Nat
  | 0, _, acc => some acc
  | n + 1, start, acc =>
    match pyGet arr start with
    | none => none
    | some v => btiGo arr e n (start + 1) (acc ||| ((v &&& 0xFF) <<< ((e - start) * 8)))

/-- `McaFile.bytes_to_int(arr, start, end)` with its accumulator
(`res` starts at 0): big-endian combine of `arr[start..end]`, `none` on
`IndexError`. -/
def bytes_to_int (arr : ByteBuf) (start e : Nat) (acc : Nat) : Option Nat :=
  btiGo arr e (e + 1 - start) start acc

/-- One iteration of the loop in `McaFile.read_file` at byte index `i` of
the location table. -/
def decodeStep (locations timestamps arr : ByteBuf) (m : ChunkMap) (i : Nat) :
    Option ChunkMap :=
  match bytes_to_int timestamps i (i + 3) 0 with
  | none => none
  | some timestamp =>
    match bytes_to_int locations i (i + 2) 0 with
    | none => none
    | some location =>
      match pyGet locations (i + 3) with
      | none => none
      | some b =>
        let sz := b &&& 0xFF
        if sz = 0 then some m
        else
          let chunk_data :=
            (pySlice arr (((location : Int) - 2) * 4096)
              (((location : Int) + (sz : Int) - 2) * 4096)).toList
          some (m ++ [(i, ⟨timestamp, location, sz, chunk_data⟩)])

/-- The loop of `McaFile.read_file` over the index list. -/
def decodeLoop (locations timestamps arr : ByteBuf) :
    List Nat → ChunkMap → Option ChunkMap
  | [], m => some m
  | i :: rest, m =>
    match decodeStep locations timestamps arr m i with
    | none => none
    | some m' => decodeLoop locations timestamps arr rest m'

/-- `range(0, n, 4)`. -/
def pyRange4 (n : Nat) : List Nat :=
  (List.range ((n + 3) / 4)).map (fun k => 4 * k)

/-- `McaFile.read_file` on the bytes read from the file: split off the
location table, timestamp table and chunk-data area, then scan the
location table in 4-byte strides. `none` models an uncaught exception. -/
def read_file (b : ByteBuf) : Option ChunkMap :=
  let locations := pySlice b 0 4096
  let timestamps := pySlice b 4096 8192
  let chunk_data_array := pySlice b 8192 b.size
  decodeLoop locations timestamps chunk_data_array (pyRange4 locations.size) []

/-- Point write `buf[i] = v` on a bytearray (indices used by the program
are always in range; out-of-range writes do not occur under the stated
hypotheses). -/
def setByte (b : ByteBuf) (i v : Nat) : ByteBuf :=
  { size := b.size, data := fun j => if j = i then v else b.data j }

/-- `McaFile.set_timestamp(timestamp, pos, chunk)`. -/
def set_timestamp (t : ByteBuf) (pos : Nat) (c : Chunk) : ByteBuf :=
  setByte
    (setByte
      (setByte
        (setByte t pos ((c.timestamp >>> 24) &&& 0xFF))
        (pos + 1) ((c.timestamp >>> 16) &&& 0xFF))
      (pos + 2) ((c.timestamp >>> 8) &&& 0xFF))
    (pos + 3) (c.timestamp &&& 0xFF)

/-- `McaFile.set_location(locations, pos, chunk)`. -/
def set_location (l : ByteBuf) (pos : Nat) (c : Chunk) : ByteBuf :=
  setByte
    (setByte
      (setByte
        (setByte l pos ((c.location >>> 16) &&& 0xFF))
        (pos + 1) ((c.location >>> 8) &&& 0xFF))
      (pos + 2) (c.location &&& 0xFF))
    (pos + 3) (c.size &&& 0xFF)

/-- Python dict assignment `d[k] = v` on an insertion-ordered
association list. -/
def dictSet (l : List (Nat × List Nat)) (k : Nat) (v : List Nat) :
    List (Nat × List Nat) :=
  if l.any (fun e => e.1 = k) then
    l.map (fun e => if e.1 = k then (k, v) else e)
  else l ++ [(k, v)]

/-- Bytearray slice assignment `res[pos : pos + len(data)] = data` (the
written range always lies inside `res` under the stated hypotheses). -/
def writeSeg (res : ByteBuf) (pos : Nat) (data : List Nat) : ByteBuf :=
  { size := res.size
    data := fun j =>
      if pos ≤ j ∧ j < pos + data.length then data.getD (j - pos) 0 else res.data j }

/-- The zero-filled `bytearray(n)`. -/
def zeroBuf (n : Nat) : ByteBuf :=
  { size := n, data := fun _ => 0 }

/-- `McaFile.join(locations, timestamps, data_list, max_pos)`. -/
def join (locations timestamps : ByteBuf) (data_list : List (Nat × List Nat))
    (max_pos : Nat) : ByteBuf :=
  let total_bytes := locations.size + timestamps.size + max_pos
  let res := writeSeg (writeSeg (zeroBuf total_bytes) 0 locations.toList)
    4096 timestamps.toList
  data_list.foldl (fun r e => writeSeg r (e.1 * 4096) e.2) res

/-- The state threaded through the loop in `McaFile.write`: the two header
tables, `chunk_data_list`, and `max_pos`. -/
structure WriteState where
  locations : ByteBuf
  timestamps : ByteBuf
  chunk_data_list : List (Nat × List Nat)
  max_pos : Nat

/-- One iteration of the loop in `McaFile.write`. -/
def writeStep (st : WriteState) (e : Nat × Chunk) : WriteState :=
  { locations := set_location st.locations e.1 e.2
    timestamps := set_timestamp st.timestamps e.1 e.2
    chunk_data_list := dictSet st.chunk_data_list e.2.location e.2.chunk_data
    max_pos :=
      let byte_position := (e.2.size + e.2.location - 2) * 4096
      if byte_position > st.max_pos then byte_position else st.max_pos }

/-- The pure value `to_write` computed by `McaFile.write(path)`: update the
chunk locations, fill both header tables and `chunk_data_list`, track
`max_pos`, then `join`. -/
def write_buf (m : ChunkMap) : ByteBuf :=
  let m' := update_chunk_locations m
  let st := m'.foldl writeStep
    ⟨zeroBuf 4096, zeroBuf 4096, [], 0⟩
  join st.locations st.timestamps st.chunk_data_list st.max_pos

/-- `FilePair(from_file, to_file)`. -/
structure FilePair where
  from_file : String
  to_file : String
deriving DecidableEq, Repr

/-- A Python value as compared by `==` in `name in f1`: `name` is a `str`
and the elements of `f1` (the result of `list_mca_files`) are 3-tuples of
`str`. Python equality between values of these two types is structural
within a type and `False` across types. -/
inductive PyVal
  | str (s : String)
  | tup (a b c : String)
deriving DecidableEq, Repr

/-- Python `==` on these values. -/
def pyEq : PyVal → PyVal → Bool
  | .str a, .str b => a == b
  | .tup a b c, .tup d e f => a == d && b == e && c == f
  | _, _ => false

/-- Python `name in f1` where `f1` is the list of `(file, from, to)`
3-tuples returned by `list_mca_files`. -/
def pyInTupleList (name : String) (f1 : List (String × String × String)) : Bool :=
  f1.any (fun u => pyEq (.str name) (.tup u.1 u.2.1 u.2.2))

/-- One iteration of the classification loop over `f2` in
`RegionFinder.merge_dimension`: `if name in f1` appends to
`files_to_merge` (evaluating `f1[name]`, which indexes a list with a
string — a `TypeError`, modelled as `none`), otherwise appends
`FilePair(from_file, os.path.join(world1_dim_path, name))` to
`files_to_copy`. -/
def classifyStep (world1_dim_path : String)
    (f1 : List (String × String × String))
    (acc : List FilePair × List FilePair) (t : String × String × String) :
    Option (List FilePair × List FilePair) :=
  if pyInTupleList t.1 f1 then none
  else some (acc.1 ++ [⟨t.2.1, world1_dim_path ++ "/" ++ t.1⟩], acc.2)

/-- The classification of the two discovered file lists in
`RegionFinder.merge_dimension` into `(files_to_copy, files_to_merge)`. -/
def classifyFiles (world1_dim_path : String)
    (f1 f2 : List (String × String × String)) :
    Option (List FilePair × List FilePair) :=
  f2.foldlM (classifyStep world1_dim_path f1) ([], [])

/-- Python `str.lower()`: lowercase each character. -/
def pyLower (s : String) : String :=
  String.mk (s.data.map Char.toLower)

/-- The decision at the end of `RegionFinder.merge_dimension`: when a copy
or merge candidate exists, prompt and run `self.copy` / `self.merge` iff
`user_input.lower() == "y"`; otherwise do nothing. -/
def merge_dimension_acts (files_to_copy files_to_merge : List FilePair)
    (user_input : String) : Bool :=
  if files_to_copy ≠ [] ∨ files_to_merge ≠ [] then pyLower user_input == "y"
  else false

/-- Reference-semantics model of a `merge` + `write` cycle: `Chunk` objects
live in a store addressed by identity, and the two chunk maps hold
references. `McaFile.merge` copies references from `other.chunk_map` into
`self.chunk_map`, so merged-in chunks remain aliased with the source map;
`McaFile.update_chunk_locations` then mutates `chunk.location` through
those references. The rest of `McaFile.write` only reads the chunks. -/
def mergeRefs (store : Nat → Chunk) (base other : List (Nat × Nat))
    (rule : MergeRule) : List (Nat × Nat) :=
  other.foldl
    (fun acc e =>
      match List.lookup e.1 acc with
      | some cid =>
          if is_allowed_to_merge rule (store cid) (store e.2) then
            acc.map (fun p => if p.1 = e.1 then (e.1, e.2) else p)
          else acc
      | none => acc ++ [e])
    base

/-- `McaFile.update_chunk_locations` acting on the store: for each chunk
reference in the map, in order, set that object's `location` and advance
the address by its `size`. -/
def updateLocsRefs (store : Nat → Chunk) (m : List (Nat × Nat)) : Nat → Chunk :=
  (m.foldl
    (fun (st : (Nat → Chunk) × Nat) e =>
      let store' := fun cid =>
        if cid = e.2 then { st.1 cid with location := st.2 } else st.1 cid
      (store', st.2 + (store' e.2).size))
    (store, 2)).1

/-- The chunk map an interpreter observes: each position with the chunk
object its reference points to. -/
def observe (store : Nat → Chunk) (m : List (Nat × Nat)) : ChunkMap :=
  m.map (fun e => (e.1, store e.2))

/-- Sum of the `size` fields of the first `j` entries: the sector address
assigned to entry `j` by `update_chunk_locations` is `2 +` this. -/
def sizesBefore (m : ChunkMap) (j : Nat) : Nat :=
  ((m.take j).map (fun e => e.2.size)).sum

/-- The `(slotIndex, timestamp, payload)` view of a chunk-map entry
(slot indices are the byte offsets `0, 4, …, 4092` used as `chunk_map`
keys by `read_file` and `write`). -/
def chunkTriple (e : Nat × Chunk) : Nat × Nat × List Nat :=
  (e.1, e.2.timestamp, e.2.chunk_data)

/-- The slot at location-table byte offset `i` of a chunk map, if any. -/
def entryAt (m : ChunkMap) (i : Nat) : Option (Nat × Chunk) :=
  (List.lookup i m).map (fun c => (i, c))

/-- `maxExtent` of a compacted map: the maximum over all slots of
`(sectorOffset + sectorCount - 2) * 4096`, 0 when empty. -/
def maxExtent (m : ChunkMap) : Nat :=
  (m.map (fun e => (e.2.location + e.2.size - 2) * 4096)).foldr max 0

/-- The byte `set_location` writes at offset `off` (0..3) of a chunk's
4-byte location-table entry. -/
def locByteAt (c : Chunk) (off : Nat) : Nat :=
  if off = 3 then c.size &&& 255
  else if off = 2 then c.location &&& 255
  else if off = 1 then (c.location >>> 8) &&& 255
  else (c.location >>> 16) &&& 255

/-- The byte `set_timestamp` writes at offset `off` (0..3) of a chunk's
4-byte timestamp-table entry. -/
def tsByteAt (c : Chunk) (off : Nat) : Nat :=
  if off = 3 then c.timestamp &&& 255
  else if off = 2 then (c.timestamp >>> 8) &&& 255
  else if off = 1 then (c.timestamp >>> 16) &&& 255
  else (c.timestamp >>> 24) &&& 255

/-- Total `sectorCount` of a chunk map. -/
def totalSizes (m : ChunkMap) : Nat :=
  (m.map (fun e => e.2.size)).sum

/-- `j` lies in the payload region written for some slot of `m`. -/
def inPayloadOf (m : ChunkMap) (j : Nat) : Prop :=
  ∃ e ∈ m, e.2.location * 4096 ≤ j ∧ j < e.2.location * 4096 + e.2.chunk_data.length

/-- `j` lies in a 4-byte header-table entry written for some slot of `m`
(location-table entry at the slot's key, timestamp entry 4096 later). -/
def inHeaderOf (m : ChunkMap) (j : Nat) : Prop :=
  ∃ e ∈ m, (e.1 ≤ j ∧ j < e.1 + 4) ∨ (4096 + e.1 ≤ j ∧ j < 4096 + e.1 + 4)

/-- §8's concrete scenario: `base` holds slot 5 (key `5*4 = 20`),
timestamp 100, one sector. -/
def specBase : ChunkMap :=
  [(20, ⟨100, 2, 1, List.replicate 4096 1⟩)]

/-- §8's concrete scenario: `incoming` holds slot 5 (timestamp 200, two
sectors) and slot 9 (key `9*4 = 36`, timestamp 50, one sector). -/
def specIncoming : ChunkMap :=
  [(20, ⟨200, 2, 2, List.replicate 8192 2⟩), (36, ⟨50, 4, 1, List.replicate 4096 3⟩)]

/-- An 8192-byte buffer whose location table declares slot 0 with
`sectorOffset = 2`, `sectorCount = 1`, but which carries no payload
bytes at all. -/
def shortPayloadBuf : ByteBuf :=
  ⟨8192, fun i => if i = 2 then 2 else if i = 3 then 1 else 0⟩

/-- A one-object heap for the aliasing analysis: chunk id 0 holds
timestamp 7, `location` 5, one sector, payload `[9]`. -/
def aliasStore : Nat → Chunk :=
  fun _ => ⟨7, 5, 1, [9]⟩

/-! ### Glue layer: file classification and the confirmation prompt -/

lemma pyInTupleList_eq_false (name : String)
    (f1 : List (String × String × String)) :
    pyInTupleList name f1 = false := by
  simp only [pyInTupleList, List.any_eq_false]
  intro u _
  simp [pyEq]

lemma classifyFiles_go (p : String) (f1 : List (String × String × String)) :
    ∀ (f2 : List (String × String × String)) (acc : List FilePair × List FilePair),
      f2.foldlM (classifyStep p f1) acc
        = some (acc.1 ++ f2.map (fun t => ⟨t.2.1, p ++ "/" ++ t.1⟩), acc.2) := by
  intro f2
  induction f2 with
  | nil => intro acc; simp
  | cons t rest ih =>
    intro acc
    simp only [List.foldlM_cons, classifyStep, pyInTupleList_eq_false,
      Bool.false_eq_true, if_false, Option.bind_eq_bind, Option.some_bind, ih,
      List.map_cons]
    simp [List.append_assoc]

/-- C1: in `merge_dimension`, `f1` is a list of 3-tuples, so `name in f1`
compares a string against tuples and is always false: a filename present
in both file sets is classified as a whole-file copy, and the merge list
is always empty — contradicting the claimed pairing. -/
theorem classify_common_file_is_copied :
    classifyFiles "w1/region"
        [("r.0.0.mca", "w1/region/r.0.0.mca", "w1/region/r.0.0.mca")]
        [("r.0.0.mca", "w2/region/r.0.0.mca", "w1/region/r.0.0.mca")]
      = some ([⟨"w2/region/r.0.0.mca", "w1/region/r.0.0.mca"⟩], [])
    ∧ ∀ (p : String) (f1 f2 : List (String × String × String)),
        (classifyFiles p f1 f2).map Prod.snd = some ([] : List FilePair) := by
  refine ⟨rfl, fun p f1 f2 => ?_⟩
  rw [classifyFiles, classifyFiles_go p f1 f2 ([], [])]
  rfl

/-- C10: for a dimension with a non-empty copy or merge candidate list,
the copy and merge actions run iff the confirmation response, lowercased,
is exactly `"y"`; in particular the empty response (plain Enter at the
`[Y/n]` prompt) skips them. -/
theorem merge_dimension_confirmation (c m : List FilePair) (inp : String)
    (h : c ≠ [] ∨ m ≠ []) :
    (merge_dimension_acts c m inp = true ↔ pyLower inp = "y")
    ∧ merge_dimension_acts c m "" = false := by
  constructor
  · rw [merge_dimension_acts, if_pos h]
    exact beq_iff_eq
  · rw [merge_dimension_acts, if_pos h]
    decide

/-- Witness for C10 at a concrete dimension state. -/
theorem merge_dimension_confirmation_witness :
    (merge_dimension_acts [⟨"a", "b"⟩] [] "Y" = true ↔ pyLower "Y" = "y")
    ∧ merge_dimension_acts [⟨"a", "b"⟩] [] "" = false :=
  merge_dimension_confirmation [⟨"a", "b"⟩] [] "Y" (Or.inl (by decide))

/-! ### Aliasing between the merged map and the incoming map -/

lemma updateLocsRefs_go_fields (m : List (Nat × Nat)) :
    ∀ (st : Nat → Chunk) (addr : Nat) (cid : Nat),
      (((m.foldl
          (fun (st : (Nat → Chunk) × Nat) e =>
            let store' := fun cid =>
              if cid = e.2 then { st.1 cid with location := st.2 } else st.1 cid
            (store', st.2 + (store' e.2).size))
          (st, addr)).1) cid).timestamp = (st cid).timestamp
      ∧ (((m.foldl
          (fun (st : (Nat → Chunk) × Nat) e =>
            let store' := fun cid =>
              if cid = e.2 then { st.1 cid with location := st.2 } else st.1 cid
            (store', st.2 + (store' e.2).size))
          (st, addr)).1) cid).size = (st cid).size
      ∧ (((m.foldl
          (fun (st : (Nat → Chunk) × Nat) e =>
            let store' := fun cid =>
              if cid = e.2 then { st.1 cid with location := st.2 } else st.1 cid
            (store', st.2 + (store' e.2).size))
          (st, addr)).1) cid).chunk_data = (st cid).chunk_data := by
  induction m with
  | nil => intro st addr cid; exact ⟨rfl, rfl, rfl⟩
  | cons e rest ih =>
    intro st addr cid
    rw [List.foldl_cons]
    obtain ⟨h1, h2, h3⟩ := ih
      (fun cid => if cid = e.2 then { st cid with location := addr } else st cid)
      (addr + (if e.2 = e.2 then { st e.2 with location := addr } else st e.2).size)
      cid
    refine ⟨?_, ?_, ?_⟩
    · rw [h1]; by_cases hc : cid = e.2 <;> simp [hc]
    · rw [h2]; by_cases hc : cid = e.2 <;> simp [hc]
    · rw [h3]; by_cases hc : cid = e.2 <;> simp [hc]

lemma updateLocsRefs_fields (store : Nat → Chunk) (m : List (Nat × Nat))
    (cid : Nat) :
    ((updateLocsRefs store m) cid).timestamp = (store cid).timestamp
    ∧ ((updateLocsRefs store m) cid).size = (store cid).size
    ∧ ((updateLocsRefs store m) cid).chunk_data = (store cid).chunk_data :=
  updateLocsRefs_go_fields m store 2 cid

/-- C8 counterexample: one chunk at slot 0 merged from `incoming` into an
empty `base` is aliased, and the offset recomputation of the subsequent
write rewrites its `location` (5 becomes 2), so the observed incoming map
differs from its pre-merge value. -/
theorem incoming_mutated_by_write :
    observe
        (updateLocsRefs aliasStore (mergeRefs aliasStore [] [(0, 0)] .newestChunks))
        [(0, 0)]
      ≠ observe aliasStore [(0, 0)] := by
  decide

/-- C8 (amended): across a merge-and-write cycle the incoming map keeps
its keys in order, and every chunk it references keeps its timestamp,
sector count and payload; only `location` fields can change, through
chunks aliased into the merged base. -/
theorem merge_write_preserves_incoming_fields (store : Nat → Chunk)
    (base other : List (Nat × Nat)) (rule : MergeRule) :
    (observe (updateLocsRefs store (mergeRefs store base other rule)) other).map
        (fun e => (e.1, e.2.timestamp, e.2.size, e.2.chunk_data))
      = (observe store other).map
        (fun e => (e.1, e.2.timestamp, e.2.size, e.2.chunk_data)) := by
  simp only [observe, List.map_map]
  refine List.map_congr_left (fun e _ => ?_)
  have h := updateLocsRefs_fields store (mergeRefs store base other rule) e.2
  simp only [Function.comp]
  exact Prod.ext rfl (Prod.ext h.1 (Prod.ext h.2.1 h.2.2))

/-! ### The merge engine -/

lemma keys_replaceKey (l : ChunkMap) (k : Nat) (c : Chunk) :
    (l.map (fun p => if p.1 = k then (k, c) else p)).map Prod.fst
      = l.map Prod.fst := by
  rw [List.map_map]
  refine List.map_congr_left (fun p _ => ?_)
  by_cases h : p.1 = k <;> simp [Function.comp, h]

lemma lookup_cons_pair (e : Nat × Chunk) (rest : ChunkMap) (x : Nat) :
    List.lookup x (e :: rest) = if x = e.1 then some e.2 else List.lookup x rest := by
  obtain ⟨a, b⟩ := e
  rw [List.lookup_cons]
  by_cases hx : x = a
  · subst hx
    simp
  · have hb : (x == a) = false := by simp [hx]
    rw [hb, if_neg hx]

lemma lookup_replaceKey (l : ChunkMap) (k : Nat) (c : Chunk) (x : Nat) :
    List.lookup x (l.map (fun p => if p.1 = k then (k, c) else p))
      = if x = k then (List.lookup k l).map (fun _ => c) else List.lookup x l := by
  induction l with
  | nil => by_cases hx : x = k <;> simp [hx]
  | cons e rest ih =>
    rw [List.map_cons]
    by_cases he : e.1 = k
    · rw [if_pos he]
      by_cases hx : x = k
      · subst hx
        simp [lookup_cons_pair, he, ih]
      · have hxe : ¬ x = e.1 := fun h => hx (h.trans he)
        simp [lookup_cons_pair, hx, hxe, ih]
    · rw [if_neg he]
      by_cases hx : x = e.1
      · have hxk : ¬ x = k := fun h => he (hx ▸ h)
        simp [lookup_cons_pair, hx, hxk, he]
      · by_cases hxk : x = k
        · subst hxk
          simp [lookup_cons_pair, hx, ih, fun h : x = e.1 => hx h, he,
            fun h : e.1 = x => he h]
        · simp [lookup_cons_pair, hx, hxk, ih]

lemma lookup_none_iff_keys (l : ChunkMap) (k : Nat) :
    List.lookup k l = none ↔ k ∉ l.map Prod.fst := by
  rw [List.lookup_eq_none_iff]
  constructor
  · intro h hk
    obtain ⟨p, hp, hpk⟩ := List.mem_map.1 hk
    have := h p hp
    simp only [bne_iff_ne, ne_eq] at this
    exact this hpk.symm
  · intro h p hp
    simp only [bne_iff_ne, ne_eq]
    exact fun hk => h (hk ▸ List.mem_map_of_mem Prod.fst hp)

/-- The value written by one merge iteration at the item's own key. -/
def mergeStepValue (rule : MergeRule) (base : ChunkMap) (e : Nat × Chunk) : Chunk :=
  match List.lookup e.1 base with
  | some current_chunk =>
      if is_allowed_to_merge rule current_chunk e.2 then e.2 else current_chunk
  | none => e.2

lemma mergeStep_some (rule : MergeRule) (base : ChunkMap) (e : Nat × Chunk)
    (cb : Chunk) (h : List.lookup e.1 base = some cb) :
    mergeStep rule base e
      = if is_allowed_to_merge rule cb e.2 then
          base.map (fun p => if p.1 = e.1 then (e.1, e.2) else p)
        else base := by
  unfold mergeStep
  rw [h]

lemma mergeStep_none (rule : MergeRule) (base : ChunkMap) (e : Nat × Chunk)
    (h : List.lookup e.1 base = none) :
    mergeStep rule base e = base ++ [e] := by
  unfold mergeStep
  rw [h]

lemma mergeStepValue_some (rule : MergeRule) (base : ChunkMap) (e : Nat × Chunk)
    (cb : Chunk) (h : List.lookup e.1 base = some cb) :
    mergeStepValue rule base e
      = if is_allowed_to_merge rule cb e.2 then e.2 else cb := by
  unfold mergeStepValue
  rw [h]

lemma mergeStepValue_none (rule : MergeRule) (base : ChunkMap) (e : Nat × Chunk)
    (h : List.lookup e.1 base = none) :
    mergeStepValue rule base e = e.2 := by
  unfold mergeStepValue
  rw [h]

lemma mergeStep_keys (rule : MergeRule) (base : ChunkMap) (e : Nat × Chunk) :
    (mergeStep rule base e).map Prod.fst
      = if (List.lookup e.1 base).isSome then base.map Prod.fst
        else base.map Prod.fst ++ [e.1] := by
  cases hk : List.lookup e.1 base with
  | none =>
    rw [mergeStep_none rule base e hk]
    simp
  | some cb =>
    rw [mergeStep_some rule base e cb hk]
    by_cases hal : is_allowed_to_merge rule cb e.2
    · rw [if_pos hal, keys_replaceKey]
      simp
    · rw [if_neg hal]
      simp

lemma mergeStep_lookup (rule : MergeRule) (base : ChunkMap) (e : Nat × Chunk)
    (x : Nat) :
    List.lookup x (mergeStep rule base e)
      = if x = e.1 then some (mergeStepValue rule base e)
        else List.lookup x base := by
  cases hk : List.lookup e.1 base with
  | none =>
    rw [mergeStep_none rule base e hk, mergeStepValue_none rule base e hk,
      List.lookup_append]
    by_cases hx : x = e.1
    · rw [if_pos hx, hx, hk]
      simp [lookup_cons_pair]
    · rw [if_neg hx]
      simp [lookup_cons_pair, hx]
  | some cb =>
    rw [mergeStep_some rule base e cb hk, mergeStepValue_some rule base e cb hk]
    by_cases hal : is_allowed_to_merge rule cb e.2
    · rw [if_pos hal, if_pos hal, lookup_replaceKey]
      by_cases hx : x = e.1 <;> simp [hx, hk, hal]
    · rw [if_neg hal, if_neg hal]
      by_cases hx : x = e.1
      · rw [if_pos hx, hx, hk]
      · rw [if_neg hx]

lemma merge_props (rule : MergeRule) :
    ∀ (incoming base : ChunkMap),
      (base.map Prod.fst).Nodup → (incoming.map Prod.fst).Nodup →
      ((merge base incoming rule).map Prod.fst
        = base.map Prod.fst
          ++ (incoming.filter (fun e => (List.lookup e.1 base).isNone)).map Prod.fst)
      ∧ (∀ pos c_b c_i, List.lookup pos base = some c_b →
          List.lookup pos incoming = some c_i →
          List.lookup pos (merge base incoming rule)
            = some (if is_allowed_to_merge rule c_b c_i then c_i else c_b))
      ∧ (∀ pos c_b, List.lookup pos base = some c_b →
          List.lookup pos incoming = none →
          List.lookup pos (merge base incoming rule) = some c_b)
      ∧ (∀ pos c_i, List.lookup pos base = none →
          List.lookup pos incoming = some c_i →
          List.lookup pos (merge base incoming rule) = some c_i) := by
  intro incoming
  induction incoming with
  | nil =>
    intro base hb _
    refine ⟨by simp [merge], ?_, ?_, ?_⟩
    · intro pos c_b c_i _ h2
      simp at h2
    · intro pos c_b h1 _
      simpa [merge] using h1
    · intro pos c_i _ h2
      simp at h2
  | cons hd tl ih =>
    intro base hb hi
    rw [List.map_cons, List.nodup_cons] at hi
    obtain ⟨hknotl, hitl⟩ := hi
    have hmc : merge base (hd :: tl) rule = merge (mergeStep rule base hd) tl rule := rfl
    have hkeys := mergeStep_keys rule base hd
    have hndacc : ((mergeStep rule base hd).map Prod.fst).Nodup := by
      rw [hkeys]
      by_cases hs : (List.lookup hd.1 base).isSome
      · rw [if_pos hs]
        exact hb
      · rw [if_neg hs]
        have hmem : hd.1 ∉ base.map Prod.fst := by
          rw [← lookup_none_iff_keys]
          cases h' : List.lookup hd.1 base with
          | none => rfl
          | some v => rw [h'] at hs; simp at hs
        rw [List.nodup_append]
        refine ⟨hb, List.nodup_singleton _, ?_⟩
        intro a ha hac
        rw [List.mem_singleton] at hac
        exact hmem (hac ▸ ha)
    obtain ⟨ihkeys, ihboth, ihbase, ihinc⟩ := ih (mergeStep rule base hd) hndacc hitl
    have hltl : List.lookup hd.1 tl = none :=
      (lookup_none_iff_keys tl hd.1).2 hknotl
    have hfilter :
        tl.filter (fun e => (List.lookup e.1 (mergeStep rule base hd)).isNone)
          = tl.filter (fun e => (List.lookup e.1 base).isNone) := by
      refine List.filter_congr (fun e he => ?_)
      have hne : ¬ e.1 = hd.1 := fun h =>
        hknotl (h ▸ List.mem_map_of_mem Prod.fst he)
      rw [mergeStep_lookup, if_neg hne]
    refine ⟨?_, ?_, ?_, ?_⟩
    · rw [hmc, ihkeys, hfilter, hkeys]
      by_cases hs : (List.lookup hd.1 base).isSome
      · rw [if_pos hs]
        have : (List.lookup hd.1 base).isNone = false := by
          cases h' : List.lookup hd.1 base with
          | none => rw [h'] at hs; simp at hs
          | some v => rfl
        rw [List.filter_cons, this]
        simp
      · rw [if_neg hs]
        have : (List.lookup hd.1 base).isNone = true := by
          cases h' : List.lookup hd.1 base with
          | none => rfl
          | some v => rw [h'] at hs; simp at hs
        rw [List.filter_cons, this]
        simp [List.append_assoc]
    · intro pos c_b c_i h1 h2
      rw [lookup_cons_pair] at h2
      by_cases hp : pos = hd.1
      · rw [if_pos hp] at h2
        obtain rfl : hd.2 = c_i := by injection h2
        rw [hmc]
        have h1' : List.lookup hd.1 base = some c_b := hp ▸ h1
        have hacc : List.lookup pos (mergeStep rule base hd)
            = some (if is_allowed_to_merge rule c_b hd.2 then hd.2 else c_b) := by
          rw [mergeStep_lookup, if_pos hp,
            mergeStepValue_some rule base hd c_b h1']
        exact ihbase pos _ hacc (hp ▸ hltl)
      · rw [if_neg hp] at h2
        rw [hmc]
        refine ihboth pos c_b c_i ?_ h2
        rw [mergeStep_lookup, if_neg hp]
        exact h1
    · intro pos c_b h1 h2
      rw [lookup_cons_pair] at h2
      by_cases hp : pos = hd.1
      · rw [if_pos hp] at h2
        simp at h2
      · rw [if_neg hp] at h2
        rw [hmc]
        refine ihbase pos c_b ?_ h2
        rw [mergeStep_lookup, if_neg hp]
        exact h1
    · intro pos c_i h1 h2
      rw [lookup_cons_pair] at h2
      by_cases hp : pos = hd.1
      · rw [if_pos hp] at h2
        obtain rfl : hd.2 = c_i := by injection h2
        rw [hmc]
        have h1' : List.lookup hd.1 base = none := hp ▸ h1
        have hacc : List.lookup pos (mergeStep rule base hd) = some hd.2 := by
          rw [mergeStep_lookup, if_pos hp, mergeStepValue_none rule base hd h1']
        exact ihbase pos _ hacc (hp ▸ hltl)
      · rw [if_neg hp] at h2
        rw [hmc]
        refine ihinc pos c_i ?_ h2
        rw [mergeStep_lookup, if_neg hp]
        exact h1

/-- C4: for every slot index present in `incoming`: a key absent from
`base` is appended after all of `base`'s entries, in the order `incoming`
presents them; a key present in `base` is replaced in place exactly when
`rule` permits, without moving in `base`'s iteration order, and left
entirely unchanged otherwise; keys present only in `base` are never
touched. -/
theorem merge_spec (base incoming : ChunkMap) (rule : MergeRule)
    (hb : (base.map Prod.fst).Nodup) (hi : (incoming.map Prod.fst).Nodup) :
    ((merge base incoming rule).map Prod.fst
      = base.map Prod.fst
        ++ (incoming.filter (fun e => (List.lookup e.1 base).isNone)).map Prod.fst)
    ∧ (∀ pos c_b c_i, List.lookup pos base = some c_b →
        List.lookup pos incoming = some c_i →
        List.lookup pos (merge base incoming rule)
          = some (if is_allowed_to_merge rule c_b c_i then c_i else c_b))
    ∧ (∀ pos c_b, List.lookup pos base = some c_b →
        List.lookup pos incoming = none →
        List.lookup pos (merge base incoming rule) = some c_b)
    ∧ (∀ pos c_i, List.lookup pos base = none →
        List.lookup pos incoming = some c_i →
        List.lookup pos (merge base incoming rule) = some c_i) :=
  merge_props rule incoming base hb hi

/-- Witness for C4 at a concrete pair of containers under `Always`. -/
theorem merge_spec_witness :
    List.lookup 0 (merge [(0, ⟨10, 2, 1, [0]⟩)]
        [(0, ⟨20, 2, 1, [1]⟩), (4, ⟨5, 3, 1, [2]⟩)] .always)
      = some ⟨20, 2, 1, [1]⟩
    ∧ (merge [(0, (⟨10, 2, 1, [0]⟩ : Chunk))]
        [(0, ⟨20, 2, 1, [1]⟩), (4, ⟨5, 3, 1, [2]⟩)] .always).map Prod.fst
      = [0, 4] := by
  have h := merge_spec [(0, ⟨10, 2, 1, [0]⟩)]
    [(0, ⟨20, 2, 1, [1]⟩), (4, ⟨5, 3, 1, [2]⟩)] .always (by decide) (by decide)
  constructor
  · have hx := h.2.1 0 ⟨10, 2, 1, [0]⟩ ⟨20, 2, 1, [1]⟩ rfl rfl
    simpa using hx
  · rw [h.1]
    rfl

/-- C7: with `NewestWins`, a slot index present in both containers gets
incoming's chunk iff `incoming.timestamp > base.timestamp` (strict), and
keeps base's chunk otherwise — in particular on equal timestamps. -/
theorem merge_newest_wins (base incoming : ChunkMap)
    (hb : (base.map Prod.fst).Nodup) (hi : (incoming.map Prod.fst).Nodup)
    (pos : Nat) (c_b c_i : Chunk)
    (h1 : List.lookup pos base = some c_b)
    (h2 : List.lookup pos incoming = some c_i) :
    (c_i.timestamp > c_b.timestamp →
      List.lookup pos (merge base incoming .newestChunks) = some c_i)
    ∧ (¬ c_i.timestamp > c_b.timestamp →
      List.lookup pos (merge base incoming .newestChunks) = some c_b) := by
  have h := (merge_props .newestChunks incoming base hb hi).2.1 pos c_b c_i h1 h2
  constructor
  · intro hgt
    rw [h]
    simp [is_allowed_to_merge, hgt]
  · intro hle
    rw [h]
    simp [is_allowed_to_merge, hle]

/-- Witness for C7: equal timestamps keep base's chunk. -/
theorem merge_newest_wins_witness :
    List.lookup 0 (merge [(0, (⟨10, 2, 1, [0]⟩ : Chunk))]
        [(0, (⟨10, 9, 9, [1]⟩ : Chunk))] .newestChunks)
      = some ⟨10, 2, 1, [0]⟩ := by
  have h := merge_newest_wins [(0, ⟨10, 2, 1, [0]⟩)] [(0, ⟨10, 9, 9, [1]⟩)]
    (by decide) (by decide) 0 ⟨10, 2, 1, [0]⟩ ⟨10, 9, 9, [1]⟩ rfl rfl
  exact h.2 (by decide)

/-! ### Offset recomputation (compaction) -/

lemma assignLocs_getElem :
    ∀ (m : ChunkMap) (addr j : Nat),
      (assignLocs addr m)[j]?
        = m[j]?.map (fun e => (e.1, { e.2 with location := addr + sizesBefore m j })) := by
  intro m
  induction m with
  | nil =>
    intro addr j
    simp [assignLocs]
  | cons e rest ih =>
    intro addr j
    cases j with
    | zero => simp [assignLocs, sizesBefore]
    | succ j =>
      simp only [assignLocs, List.getElem?_cons_succ, ih, sizesBefore,
        List.take_succ_cons, List.map_cons, List.sum_cons, Nat.add_assoc]

lemma assignLocs_loc_lb :
    ∀ (m : ChunkMap) (addr : Nat), ∀ f ∈ assignLocs addr m, addr ≤ f.2.location := by
  intro m
  induction m with
  | nil =>
    intro addr f hf
    cases hf
  | cons e rest ih =>
    intro addr f hf
    rw [assignLocs, List.mem_cons] at hf
    rcases hf with hf | hf
    · subst hf
      exact Nat.le_refl _
    · exact Nat.le_trans (Nat.le_add_right addr e.2.size) (ih (addr + e.2.size) f hf)

lemma assignLocs_pairwise :
    ∀ (m : ChunkMap) (addr : Nat), (∀ e ∈ m, 1 ≤ e.2.size) →
      List.Pairwise
        (fun a b => a.2.location + a.2.size ≤ b.2.location
          ∧ a.2.location < b.2.location)
        (assignLocs addr m) := by
  intro m
  induction m with
  | nil =>
    intro addr _
    exact List.Pairwise.nil
  | cons e rest ih =>
    intro addr hsz
    refine List.Pairwise.cons (fun f hf => ?_) (ih (addr + e.2.size) ?_)
    · have hlb := assignLocs_loc_lb rest (addr + e.2.size) f hf
      have h1 : 1 ≤ e.2.size := hsz e (List.mem_cons_self e rest)
      constructor
      · show addr + e.2.size ≤ f.2.location
        exact hlb
      · show addr < f.2.location
        omega
    · intro f hf
      exact hsz f (List.mem_cons_of_mem e hf)

/-- C5: `update_chunk_locations` unconditionally reassigns every slot's
offset by walking the map in iteration order from `nextSector = 2`, each
slot getting the running sector address (`2 +` the sizes of all earlier
slots) and advancing it by its own `sectorCount`; the result is packed —
every offset is at least 2 and, for slots with `sectorCount ≥ 1`,
successive payload extents neither overlap nor reuse an offset,
whatever offsets existed before. -/
theorem update_chunk_locations_spec (m : ChunkMap)
    (hsz : ∀ e ∈ m, 1 ≤ e.2.size) :
    (∀ j : Nat, (update_chunk_locations m)[j]?
        = m[j]?.map (fun e => (e.1, { e.2 with location := 2 + sizesBefore m j })))
    ∧ (∀ e ∈ update_chunk_locations m, 2 ≤ e.2.location)
    ∧ List.Pairwise
        (fun a b => a.2.location + a.2.size ≤ b.2.location
          ∧ a.2.location < b.2.location)
        (update_chunk_locations m) := by
  refine ⟨fun j => assignLocs_getElem m 2 j, ?_, assignLocs_pairwise m 2 hsz⟩
  intro e he
  exact assignLocs_loc_lb m 2 e he

/-- Witness for C5 at a concrete two-slot container with stale offsets. -/
theorem update_chunk_locations_spec_witness :
    (update_chunk_locations [(20, ⟨100, 9, 2, []⟩), (36, ⟨50, 7, 1, []⟩)])[1]?
      = some (36, ⟨50, 4, 1, []⟩) := by
  have h := update_chunk_locations_spec
    [(20, ⟨100, 9, 2, []⟩), (36, ⟨50, 7, 1, []⟩)] (by decide)
  rw [h.1 1]
  rfl

/-! ### `bytes_to_int` and Python slices -/

lemma btiGo_succ_some (arr : ByteBuf) (e n start acc : Nat) (h : start < arr.size) :
    btiGo arr e (n + 1) start acc
      = btiGo arr e n (start + 1)
          (acc ||| ((arr.data start &&& 0xFF) <<< ((e - start) * 8))) := by
  unfold btiGo
  simp only [pyGet, h, if_true]
  cases n <;> rfl

lemma btiGo_none_of_short (arr : ByteBuf) (e : Nat) :
    ∀ (n start acc : Nat), start + n = e + 1 → arr.size ≤ e → 1 ≤ n →
      btiGo arr e n start acc = none := by
  intro n
  induction n with
  | zero =>
    intro start acc _ _ h3
    omega
  | succ k ih =>
    intro start acc h1 h2 _
    by_cases hs : start < arr.size
    · rw [btiGo_succ_some arr e k start acc hs]
      exact ih (start + 1) _ (by omega) h2 (by omega)
    · unfold btiGo
      simp [pyGet, hs]

lemma btiGo_isSome (arr : ByteBuf) (e : Nat) :
    ∀ (n start acc : Nat), n ≤ e + 1 - start → e < arr.size →
      ∃ v, btiGo arr e n start acc = some v := by
  intro n
  induction n with
  | zero =>
    intro start acc _ _
    exact ⟨acc, rfl⟩
  | succ k ih =>
    intro start acc h1 h2
    rw [btiGo_succ_some arr e k start acc (by omega)]
    exact ih (start + 1) _ (by omega) h2

lemma bytes_to_int_none (arr : ByteBuf) (start e acc : Nat)
    (h1 : start ≤ e) (h2 : arr.size ≤ e) :
    bytes_to_int arr start e acc = none := by
  rw [bytes_to_int]
  exact btiGo_none_of_short arr e (e + 1 - start) start acc (by omega) h2 (by omega)

lemma bytes_to_int_isSome (arr : ByteBuf) (start e acc : Nat) (h : e < arr.size) :
    ∃ v, bytes_to_int arr start e acc = some v := by
  rw [bytes_to_int]
  exact btiGo_isSome arr e (e + 1 - start) start acc (Nat.le_refl _) h

lemma bytes_to_int_four (arr : ByteBuf) (i : Nat) (h : i + 3 < arr.size) :
    bytes_to_int arr i (i + 3) 0
      = some (((((arr.data i &&& 255) <<< 24) ||| ((arr.data (i + 1) &&& 255) <<< 16))
          ||| ((arr.data (i + 2) &&& 255) <<< 8)) ||| (arr.data (i + 3) &&& 255)) := by
  rw [bytes_to_int, show i + 3 + 1 - i = 3 + 1 from by omega,
    btiGo_succ_some arr (i + 3) 3 i 0 (by omega),
    show (3 : Nat) = 2 + 1 from rfl,
    btiGo_succ_some arr (i + 3) 2 (i + 1) _ (by omega),
    show (2 : Nat) = 1 + 1 from rfl,
    btiGo_succ_some arr (i + 3) 1 (i + 2) _ (by omega),
    show (1 : Nat) = 0 + 1 from rfl,
    btiGo_succ_some arr (i + 3) 0 (i + 3) _ h]
  rw [show btiGo arr (i + 3) 0 (i + 3 + 1) _ = some _ from rfl]
  rw [show i + 3 - i = 3 from by omega, show i + 3 - (i + 1) = 2 from by omega,
    show i + 3 - (i + 2) = 1 from by omega, Nat.sub_self]
  norm_num

lemma bytes_to_int_three (arr : ByteBuf) (i : Nat) (h : i + 2 < arr.size) :
    bytes_to_int arr i (i + 2) 0
      = some ((((arr.data i &&& 255) <<< 16) ||| ((arr.data (i + 1) &&& 255) <<< 8))
          ||| (arr.data (i + 2) &&& 255)) := by
  rw [bytes_to_int, show i + 2 + 1 - i = 2 + 1 from by omega,
    btiGo_succ_some arr (i + 2) 2 i 0 (by omega),
    show (2 : Nat) = 1 + 1 from rfl,
    btiGo_succ_some arr (i + 2) 1 (i + 1) _ (by omega),
    show (1 : Nat) = 0 + 1 from rfl,
    btiGo_succ_some arr (i + 2) 0 (i + 2) _ h]
  rw [show btiGo arr (i + 2) 0 (i + 2 + 1) _ = some _ from rfl]
  rw [show i + 2 - i = 2 from by omega, show i + 2 - (i + 1) = 1 from by omega,
    Nat.sub_self]
  norm_num

lemma sliceIdx_natCast (n i : Nat) : sliceIdx n (i : Int) = min i n := by
  rw [sliceIdx, if_neg (by omega)]
  simp

lemma pySlice_size (b : ByteBuf) (s e : Nat) :
    (pySlice b (s : Int) (e : Int)).size = min e b.size - min s b.size := by
  rw [pySlice, sliceIdx_natCast, sliceIdx_natCast]

lemma pySlice_data (b : ByteBuf) (s e : Nat) (k : Nat) :
    (pySlice b (s : Int) (e : Int)).data k = b.data (min s b.size + k) := by
  rw [pySlice]
  simp only [sliceIdx_natCast]

lemma slice_loc_size (b : ByteBuf) : (pySlice b 0 4096).size = min 4096 b.size := by
  simp [pySlice, sliceIdx]

lemma slice_loc_data (b : ByteBuf) (k : Nat) :
    (pySlice b 0 4096).data k = b.data k := by
  simp [pySlice, sliceIdx]

lemma slice_ts_size (b : ByteBuf) :
    (pySlice b 4096 8192).size = min 8192 b.size - min 4096 b.size := by
  simp [pySlice, sliceIdx]

lemma slice_ts_data (b : ByteBuf) (k : Nat) :
    (pySlice b 4096 8192).data k = b.data (min 4096 b.size + k) := by
  simp [pySlice, sliceIdx]

lemma slice_tail_size (b : ByteBuf) :
    (pySlice b 8192 (b.size : Int)).size = b.size - min 8192 b.size := by
  rw [pySlice, sliceIdx_natCast, min_self,
    show sliceIdx b.size (8192 : Int) = min 8192 b.size from by simp [sliceIdx]]

lemma slice_tail_data (b : ByteBuf) (k : Nat) :
    (pySlice b 8192 (b.size : Int)).data k = b.data (min 8192 b.size + k) := by
  rw [pySlice,
    show sliceIdx b.size (8192 : Int) = min 8192 b.size from by simp [sliceIdx]]

/-! ### decode -/

lemma read_file_eq (b : ByteBuf) :
    read_file b
      = decodeLoop (pySlice b 0 4096) (pySlice b 4096 8192)
          (pySlice b 8192 b.size) (pyRange4 (pySlice b 0 4096).size) [] := rfl

lemma decodeStep_eval (locations timestamps arr : ByteBuf) (m : ChunkMap)
    (i : Nat) (h1 : i + 3 < timestamps.size) (h2 : i + 3 < locations.size) :
    decodeStep locations timestamps arr m i
      = (let timestamp := ((((timestamps.data i &&& 255) <<< 24)
              ||| ((timestamps.data (i + 1) &&& 255) <<< 16))
              ||| ((timestamps.data (i + 2) &&& 255) <<< 8))
              ||| (timestamps.data (i + 3) &&& 255)
         let location := (((locations.data i &&& 255) <<< 16)
              ||| ((locations.data (i + 1) &&& 255) <<< 8))
              ||| (locations.data (i + 2) &&& 255)
         let sz := locations.data (i + 3) &&& 255
         if sz = 0 then some m
         else some (m ++ [(i, ⟨timestamp, location, sz,
           (pySlice arr (((location : Int) - 2) * 4096)
             (((location : Int) + (sz : Int) - 2) * 4096)).toList⟩)])) := by
  unfold decodeStep
  rw [bytes_to_int_four timestamps i h1, bytes_to_int_three locations i (by omega)]
  simp only [pyGet, h2, if_true]

lemma decodeStep_none_of_ts_short (locations timestamps arr : ByteBuf)
    (m : ChunkMap) (i : Nat) (h : timestamps.size ≤ i + 3) :
    decodeStep locations timestamps arr m i = none := by
  unfold decodeStep
  rw [bytes_to_int_none timestamps i (i + 3) 0 (by omega) h]

lemma decodeLoop_none (locations timestamps arr : ByteBuf) (i0 : Nat)
    (hstep : ∀ m, decodeStep locations timestamps arr m i0 = none) :
    ∀ (il : List Nat) (m : ChunkMap), i0 ∈ il →
      decodeLoop locations timestamps arr il m = none := by
  intro il
  induction il with
  | nil =>
    intro m h
    cases h
  | cons j rest ih =>
    intro m h
    rw [List.mem_cons] at h
    unfold decodeLoop
    rcases h with h | h
    · subst h
      rw [hstep m]
    · cases hs : decodeStep locations timestamps arr m j with
      | none => rfl
      | some m' => exact ih m' h

lemma decodeLoop_isSome (locations timestamps arr : ByteBuf) :
    ∀ (il : List Nat) (m : ChunkMap),
      (∀ i ∈ il, ∀ m', (decodeStep locations timestamps arr m' i).isSome) →
      ∃ r, decodeLoop locations timestamps arr il m = some r := by
  intro il
  induction il with
  | nil =>
    intro m _
    exact ⟨m, rfl⟩
  | cons j rest ih =>
    intro m h
    obtain ⟨m', hm'⟩ := Option.isSome_iff_exists.mp (h j (List.mem_cons_self _ _) m)
    unfold decodeLoop
    rw [hm']
    exact ih m' (fun i hi => h i (List.mem_cons_of_mem _ hi))

/-- C2 counterexample: a zero-length buffer (shorter than the 8192-byte
header) decodes successfully, to the empty Container, instead of
failing. -/
theorem read_file_empty_buffer : read_file ⟨0, fun _ => 0⟩ = some [] := rfl

/-- C2 (amended): decode fails exactly on buffers whose length is strictly
between 0 and 8192; a zero-length buffer decodes to the empty Container,
and every buffer of at least 8192 bytes decodes successfully (in
particular structurally consistent ones). -/
theorem read_file_success_iff (b : ByteBuf) :
    (read_file b).isSome ↔ (b.size = 0 ∨ 8192 ≤ b.size) := by
  rw [read_file_eq]
  by_cases h0 : b.size = 0
  · rw [slice_loc_size, h0]
    simp [pyRange4, decodeLoop, h0]
  · by_cases h8 : 8192 ≤ b.size
    · have hloc : (pySlice b 0 4096).size = 4096 := by
        rw [slice_loc_size]
        omega
      have hts : (pySlice b 4096 8192).size = 4096 := by
        rw [slice_ts_size]
        omega
      have hsteps : ∀ i ∈ pyRange4 (pySlice b 0 4096).size, ∀ m',
          (decodeStep (pySlice b 0 4096) (pySlice b 4096 8192)
            (pySlice b 8192 b.size) m' i).isSome := by
        intro i hi m'
        rw [hloc] at hi
        simp only [pyRange4, List.mem_map, List.mem_range] at hi
        obtain ⟨k, hk, rfl⟩ := hi
        rw [decodeStep_eval (pySlice b 0 4096) (pySlice b 4096 8192)
          (pySlice b 8192 b.size) m' (4 * k) (by rw [hts]; omega) (by rw [hloc]; omega)]
        by_cases hz : ((pySlice b 0 4096).data (4 * k + 3) &&& 255) = 0
        · simp [hz]
        · simp [hz]
      obtain ⟨r, hr⟩ := decodeLoop_isSome (pySlice b 0 4096) (pySlice b 4096 8192)
        (pySlice b 8192 b.size) (pyRange4 (pySlice b 0 4096).size) [] hsteps
      rw [hr]
      simp [h8]
    · have hi0 : (if b.size ≤ 4096 then 0 else 4092) ∈ pyRange4 (pySlice b 0 4096).size := by
        rw [slice_loc_size]
        simp only [pyRange4, List.mem_map, List.mem_range]
        by_cases hc : b.size ≤ 4096
        · exact ⟨0, by omega, by simp [hc]⟩
        · exact ⟨1023, by omega, by simp [hc]⟩
      have hshort : (pySlice b 4096 8192).size ≤ (if b.size ≤ 4096 then 0 else 4092) + 3 := by
        rw [slice_ts_size]
        by_cases hc : b.size ≤ 4096
        · rw [if_pos hc]
          omega
        · rw [if_neg hc]
          omega
      have hnone := decodeLoop_none (pySlice b 0 4096) (pySlice b 4096 8192)
        (pySlice b 8192 b.size) (if b.size ≤ 4096 then 0 else 4092)
        (fun m => decodeStep_none_of_ts_short _ _ _ m _ hshort)
        (pyRange4 (pySlice b 0 4096).size) [] hi0
      rw [hnone]
      simp [h0, h8]

/-! ### Payload lengths -/

lemma ByteBuf.toList_length (b : ByteBuf) : b.toList.length = b.size := by
  simp [ByteBuf.toList]

lemma pySlice_size_eq_sliceIdx (b : ByteBuf) (s e : Int) :
    (pySlice b s e).size = sliceIdx b.size e - sliceIdx b.size s := rfl

lemma payload_slice_size_le (arr : ByteBuf) (l sz : Nat) :
    (pySlice arr (((l : Int) - 2) * 4096)
      (((l : Int) + (sz : Int) - 2) * 4096)).size ≤ sz * 4096 := by
  rw [pySlice_size_eq_sliceIdx]
  unfold sliceIdx
  split_ifs <;> omega

lemma payload_slice_size_eq (arr : ByteBuf) (l sz : Nat) (h2 : 2 ≤ l)
    (hfit : (l + sz - 2) * 4096 ≤ arr.size) :
    (pySlice arr (((l : Int) - 2) * 4096)
      (((l : Int) + (sz : Int) - 2) * 4096)).size = sz * 4096 := by
  rw [pySlice_size_eq_sliceIdx]
  unfold sliceIdx
  split_ifs <;> omega

lemma decodeStep_some_mem (locations timestamps arr : ByteBuf) (m : ChunkMap)
    (i : Nat) (m' : ChunkMap)
    (h : decodeStep locations timestamps arr m i = some m') :
    ∀ e ∈ m', e ∈ m ∨ e.2.chunk_data
        = (pySlice arr (((e.2.location : Int) - 2) * 4096)
            (((e.2.location : Int) + (e.2.size : Int) - 2) * 4096)).toList := by
  unfold decodeStep at h
  cases h1 : bytes_to_int timestamps i (i + 3) 0 with
  | none => rw [h1] at h; cases h
  | some t =>
    rw [h1] at h
    cases h2 : bytes_to_int locations i (i + 2) 0 with
    | none => rw [h2] at h; cases h
    | some l =>
      rw [h2] at h
      cases h3 : pyGet locations (i + 3) with
      | none => rw [h3] at h; cases h
      | some bb =>
        rw [h3] at h
        by_cases hz : bb &&& 0xFF = 0
        · simp only [hz, if_pos] at h
          obtain rfl : m = m' := by injection h
          intro e he
          exact Or.inl he
        · simp only [hz, if_false, Option.some.injEq] at h
          subst h
          intro e he
          rw [List.mem_append, List.mem_singleton] at he
          rcases he with he | he
          · exact Or.inl he
          · subst he
            exact Or.inr rfl

lemma decodeLoop_mem (locations timestamps arr : ByteBuf) (P : Nat × Chunk → Prop)
    (hstep : ∀ m i m', decodeStep locations timestamps arr m i = some m' →
        ∀ e ∈ m', e ∈ m ∨ P e) :
    ∀ (il : List Nat) (m r : ChunkMap),
      decodeLoop locations timestamps arr il m = some r →
      ∀ e ∈ r, e ∈ m ∨ P e := by
  intro il
  induction il with
  | nil =>
    intro m r h e he
    obtain rfl : m = r := by injection h
    exact Or.inl he
  | cons j rest ih =>
    intro m r h e he
    unfold decodeLoop at h
    cases hs : decodeStep locations timestamps arr m j with
    | none => rw [hs] at h; cases h
    | some m1 =>
      rw [hs] at h
      rcases ih m1 r h e he with hin | hp
      · exact hstep m j m1 hs e hin
      · exact Or.inr hp

set_option maxRecDepth 100000 in
/-- C9 counterexample: decoding an 8192-byte buffer whose location table
declares slot 0 with one sector materializes a Slot whose payload is
empty — its length 0 is not `sectorCount * 4096`. -/
theorem read_file_payload_too_short :
    read_file shortPayloadBuf = some [(0, ⟨0, 2, 1, []⟩)]
    ∧ ((0, (⟨0, 2, 1, []⟩ : Chunk)).2.chunk_data.length
        ≠ (0, (⟨0, 2, 1, []⟩ : Chunk)).2.size * 4096) := by
  constructor
  · rfl
  · decide

/-- C9 (amended): every Slot materialized by decode has a payload of at
most `sectorCount * 4096` bytes (Python slicing clamps), with equality
exactly guaranteed when the declared payload range fits inside the
buffer — in particular for every well-formed region file. -/
theorem decode_payload_length (b : ByteBuf) (m : ChunkMap)
    (h : read_file b = some m) :
    ∀ e ∈ m, e.2.chunk_data.length ≤ e.2.size * 4096
      ∧ (2 ≤ e.2.location →
          8192 + (e.2.location + e.2.size - 2) * 4096 ≤ b.size →
          e.2.chunk_data.length = e.2.size * 4096) := by
  rw [read_file_eq] at h
  intro e he
  have hmem := decodeLoop_mem (pySlice b 0 4096) (pySlice b 4096 8192)
    (pySlice b 8192 b.size)
    (fun e => e.2.chunk_data
      = (pySlice (pySlice b 8192 b.size) (((e.2.location : Int) - 2) * 4096)
          (((e.2.location : Int) + (e.2.size : Int) - 2) * 4096)).toList)
    (fun m i m' hs => decodeStep_some_mem _ _ _ m i m' hs)
    (pyRange4 (pySlice b 0 4096).size) [] m h e he
  rcases hmem with hin | hp
  · cases hin
  · have hlen : e.2.chunk_data.length
        = (pySlice (pySlice b 8192 b.size) (((e.2.location : Int) - 2) * 4096)
            (((e.2.location : Int) + (e.2.size : Int) - 2) * 4096)).size := by
      rw [hp, ByteBuf.toList_length]
    constructor
    · rw [hlen]
      exact payload_slice_size_le _ _ _
    · intro hl2 hfit
      rw [hlen]
      refine payload_slice_size_eq _ _ _ hl2 ?_
      rw [slice_tail_size]
      omega

set_option maxRecDepth 100000 in
/-- Witness for C9's amended theorem at the concrete short-payload
buffer: the materialized slot's payload is no longer than one sector, and
the fit condition is vacuous there. -/
theorem decode_payload_length_witness :
    ([] : List Nat).length ≤ 1 * 4096
    ∧ (2 ≤ 2 →
        8192 + (2 + 1 - 2) * 4096 ≤ shortPayloadBuf.size →
        ([] : List Nat).length = 1 * 4096) :=
  decode_payload_length shortPayloadBuf [(0, ⟨0, 2, 1, []⟩)] rfl
    (0, ⟨0, 2, 1, []⟩) (List.mem_singleton_self _)

/-! ### The write path: decomposing the fold in `McaFile.write` -/

lemma writeFold_locations :
    ∀ (l : ChunkMap) (st : WriteState),
      (l.foldl writeStep st).locations
        = l.foldl (fun b e => set_location b e.1 e.2) st.locations := by
  intro l
  induction l with
  | nil => intro st; rfl
  | cons e rest ih => intro st; exact ih (writeStep st e)

lemma writeFold_timestamps :
    ∀ (l : ChunkMap) (st : WriteState),
      (l.foldl writeStep st).timestamps
        = l.foldl (fun b e => set_timestamp b e.1 e.2) st.timestamps := by
  intro l
  induction l with
  | nil => intro st; rfl
  | cons e rest ih => intro st; exact ih (writeStep st e)

lemma writeFold_data_list :
    ∀ (l : ChunkMap) (st : WriteState),
      (l.foldl writeStep st).chunk_data_list
        = l.foldl (fun d e => dictSet d e.2.location e.2.chunk_data)
            st.chunk_data_list := by
  intro l
  induction l with
  | nil => intro st; rfl
  | cons e rest ih => intro st; exact ih (writeStep st e)

lemma writeFold_max_pos :
    ∀ (l : ChunkMap) (st : WriteState),
      (l.foldl writeStep st).max_pos
        = l.foldl (fun a e => max a ((e.2.size + e.2.location - 2) * 4096))
            st.max_pos := by
  intro l
  induction l with
  | nil => intro st; rfl
  | cons e rest ih =>
    intro st
    rw [List.foldl_cons, List.foldl_cons, ih (writeStep st e)]
    have : (writeStep st e).max_pos
        = max st.max_pos ((e.2.size + e.2.location - 2) * 4096) := by
      show (if (e.2.size + e.2.location - 2) * 4096 > st.max_pos
            then (e.2.size + e.2.location - 2) * 4096 else st.max_pos) = _
      by_cases h : (e.2.size + e.2.location - 2) * 4096 > st.max_pos
      · rw [if_pos h]
        omega
      · rw [if_neg h]
        omega
    rw [this]

lemma setByte_size (b : ByteBuf) (i v : Nat) : (setByte b i v).size = b.size := rfl

lemma set_location_size (b : ByteBuf) (pos : Nat) (c : Chunk) :
    (set_location b pos c).size = b.size := rfl

lemma set_timestamp_size (b : ByteBuf) (pos : Nat) (c : Chunk) :
    (set_timestamp b pos c).size = b.size := rfl

lemma foldl_write_size (w : ByteBuf → Nat → Chunk → ByteBuf)
    (hsize : ∀ b pos c, (w b pos c).size = b.size) :
    ∀ (l : ChunkMap) (b : ByteBuf),
      (l.foldl (fun b e => w b e.1 e.2) b).size = b.size := by
  intro l
  induction l with
  | nil => intro b; rfl
  | cons e rest ih =>
    intro b
    rw [List.foldl_cons, ih (w b e.1 e.2), hsize]

lemma set_location_data (b : ByteBuf) (pos : Nat) (c : Chunk) (q : Nat) :
    (set_location b pos c).data q
      = if q = pos + 3 then c.size &&& 255
        else if q = pos + 2 then c.location &&& 255
        else if q = pos + 1 then (c.location >>> 8) &&& 255
        else if q = pos then (c.location >>> 16) &&& 255
        else b.data q := rfl

lemma set_timestamp_data (b : ByteBuf) (pos : Nat) (c : Chunk) (q : Nat) :
    (set_timestamp b pos c).data q
      = if q = pos + 3 then c.timestamp &&& 255
        else if q = pos + 2 then (c.timestamp >>> 8) &&& 255
        else if q = pos + 1 then (c.timestamp >>> 16) &&& 255
        else if q = pos then (c.timestamp >>> 24) &&& 255
        else b.data q := rfl

lemma set_location_data_out (b : ByteBuf) (pos : Nat) (c : Chunk) (q : Nat)
    (h : ¬ (pos ≤ q ∧ q < pos + 4)) :
    (set_location b pos c).data q = b.data q := by
  rw [set_location_data, if_neg (by omega), if_neg (by omega), if_neg (by omega),
    if_neg (by omega)]

lemma set_location_data_in (b : ByteBuf) (pos : Nat) (c : Chunk) (q : Nat)
    (h1 : pos ≤ q) (h2 : q < pos + 4) :
    (set_location b pos c).data q = locByteAt c (q - pos) := by
  rw [set_location_data, locByteAt]
  have : q = pos ∨ q = pos + 1 ∨ q = pos + 2 ∨ q = pos + 3 := by omega
  rcases this with h | h | h | h <;> subst h <;> simp

lemma set_timestamp_data_out (b : ByteBuf) (pos : Nat) (c : Chunk) (q : Nat)
    (h : ¬ (pos ≤ q ∧ q < pos + 4)) :
    (set_timestamp b pos c).data q = b.data q := by
  rw [set_timestamp_data, if_neg (by omega), if_neg (by omega), if_neg (by omega),
    if_neg (by omega)]

lemma set_timestamp_data_in (b : ByteBuf) (pos : Nat) (c : Chunk) (q : Nat)
    (h1 : pos ≤ q) (h2 : q < pos + 4) :
    (set_timestamp b pos c).data q = tsByteAt c (q - pos) := by
  rw [set_timestamp_data, tsByteAt]
  have : q = pos ∨ q = pos + 1 ∨ q = pos + 2 ∨ q = pos + 3 := by omega
  rcases this with h | h | h | h <;> subst h <;> simp

lemma foldl_write4_untouched (w : ByteBuf → Nat → Chunk → ByteBuf)
    (hw : ∀ b pos c q, ¬ (pos ≤ q ∧ q < pos + 4) → (w b pos c).data q = b.data q) :
    ∀ (l : ChunkMap) (b : ByteBuf) (q : Nat),
      (∀ e ∈ l, ¬ (e.1 ≤ q ∧ q < e.1 + 4)) →
      (l.foldl (fun b e => w b e.1 e.2) b).data q = b.data q := by
  intro l
  induction l with
  | nil => intro b q _; rfl
  | cons e rest ih =>
    intro b q h
    rw [List.foldl_cons, ih (w b e.1 e.2) q
      (fun f hf => h f (List.mem_cons_of_mem e hf)),
      hw b e.1 e.2 q (h e (List.mem_cons_self e rest))]

lemma foldl_write4_hit (w : ByteBuf → Nat → Chunk → ByteBuf)
    (g : Chunk → Nat → Nat)
    (hw_out : ∀ b pos c q, ¬ (pos ≤ q ∧ q < pos + 4) → (w b pos c).data q = b.data q)
    (hw_in : ∀ b pos c q, pos ≤ q → q < pos + 4 → (w b pos c).data q = g c (q - pos)) :
    ∀ (l : ChunkMap) (b : ByteBuf) (e : Nat × Chunk) (q : Nat),
      (∀ f ∈ l, f.1 % 4 = 0) → (l.map Prod.fst).Nodup →
      e ∈ l → e.1 ≤ q → q < e.1 + 4 →
      (l.foldl (fun b e => w b e.1 e.2) b).data q = g e.2 (q - e.1) := by
  intro l
  induction l with
  | nil =>
    intro b e q _ _ he
    cases he
  | cons f rest ih =>
    intro b e q hmult hnd he hq1 hq2
    rw [List.map_cons, List.nodup_cons] at hnd
    rw [List.mem_cons] at he
    rw [List.foldl_cons]
    rcases he with he | he
    · subst he
      rw [foldl_write4_untouched w hw_out rest (w b e.1 e.2) q ?rest_out,
        hw_in b e.1 e.2 q hq1 hq2]
      case rest_out =>
        intro f hf hcov
        have hfe : f.1 ≠ e.1 := by
          intro hfeq
          exact hnd.1 (hfeq ▸ List.mem_map_of_mem Prod.fst hf)
        have h4f : f.1 % 4 = 0 := (hmult f (List.mem_cons_of_mem _ hf))
        have h4e : e.1 % 4 = 0 := hmult e (List.mem_cons_self _ _)
        omega
    · exact ih (w b f.1 f.2) e q
        (fun f' hf' => hmult f' (List.mem_cons_of_mem _ hf')) hnd.2 he hq1 hq2

/-! ### The write path: `chunk_data_list` and `join` -/

lemma dictSet_fresh (acc : List (Nat × List Nat)) (k : Nat) (v : List Nat)
    (h : ∀ a ∈ acc, a.1 ≠ k) :
    dictSet acc k v = acc ++ [(k, v)] := by
  rw [dictSet, if_neg]
  simp only [List.any_eq_true, decide_eq_true_eq]
  rintro ⟨a, ha, hak⟩
  exact h a ha hak

lemma foldl_dictSet_append :
    ∀ (l : ChunkMap) (acc : List (Nat × List Nat)),
      (∀ e ∈ l, ∀ a ∈ acc, a.1 ≠ e.2.location) →
      (l.map (fun e => e.2.location)).Nodup →
      l.foldl (fun d e => dictSet d e.2.location e.2.chunk_data) acc
        = acc ++ l.map (fun e => (e.2.location, e.2.chunk_data)) := by
  intro l
  induction l with
  | nil => intro acc _ _; simp
  | cons e rest ih =>
    intro acc hfresh hnd
    rw [List.map_cons, List.nodup_cons] at hnd
    rw [List.foldl_cons,
      dictSet_fresh acc e.2.location e.2.chunk_data
        (fun a ha => hfresh e (List.mem_cons_self _ _) a ha),
      ih (acc ++ [(e.2.location, e.2.chunk_data)]) ?fresh hnd.2]
    · simp [List.append_assoc]
    case fresh =>
      intro f hf a ha
      rw [List.mem_append, List.mem_singleton] at ha
      rcases ha with ha | ha
      · exact hfresh f (List.mem_cons_of_mem _ hf) a ha
      · subst ha
        intro heq
        refine hnd.1 ?_
        rw [show e.2.location = f.2.location from heq]
        exact List.mem_map_of_mem _ hf

lemma writeSeg_size (r : ByteBuf) (p : Nat) (d : List Nat) :
    (writeSeg r p d).size = r.size := rfl

lemma writeSeg_data_in (r : ByteBuf) (p : Nat) (d : List Nat) (j : Nat)
    (h1 : p ≤ j) (h2 : j < p + d.length) :
    (writeSeg r p d).data j = d.getD (j - p) 0 := by
  show (if p ≤ j ∧ j < p + d.length then d.getD (j - p) 0 else r.data j) = _
  rw [if_pos ⟨h1, h2⟩]

lemma writeSeg_data_out (r : ByteBuf) (p : Nat) (d : List Nat) (j : Nat)
    (h : ¬ (p ≤ j ∧ j < p + d.length)) :
    (writeSeg r p d).data j = r.data j := by
  show (if p ≤ j ∧ j < p + d.length then d.getD (j - p) 0 else r.data j) = _
  rw [if_neg h]

lemma foldl_writeSeg_size :
    ∀ (dl : List (Nat × List Nat)) (r : ByteBuf),
      (dl.foldl (fun r e => writeSeg r (e.1 * 4096) e.2) r).size = r.size := by
  intro dl
  induction dl with
  | nil => intro r; rfl
  | cons e rest ih => intro r; exact ih (writeSeg r (e.1 * 4096) e.2)

lemma foldl_writeSeg_untouched :
    ∀ (dl : List (Nat × List Nat)) (r : ByteBuf) (j : Nat),
      (∀ f ∈ dl, ¬ (f.1 * 4096 ≤ j ∧ j < f.1 * 4096 + f.2.length)) →
      (dl.foldl (fun r e => writeSeg r (e.1 * 4096) e.2) r).data j = r.data j := by
  intro dl
  induction dl with
  | nil => intro r j _; rfl
  | cons f rest ih =>
    intro r j h
    rw [List.foldl_cons, ih (writeSeg r (f.1 * 4096) f.2) j
      (fun f' hf' => h f' (List.mem_cons_of_mem _ hf')),
      writeSeg_data_out r (f.1 * 4096) f.2 j (h f (List.mem_cons_self _ _))]

lemma foldl_writeSeg_hit :
    ∀ (dl : List (Nat × List Nat)) (r : ByteBuf) (e : Nat × List Nat) (j : Nat),
      e ∈ dl →
      (∀ f ∈ dl, f = e ∨ ¬ (f.1 * 4096 ≤ j ∧ j < f.1 * 4096 + f.2.length)) →
      e.1 * 4096 ≤ j → j < e.1 * 4096 + e.2.length →
      (dl.foldl (fun r e => writeSeg r (e.1 * 4096) e.2) r).data j
        = e.2.getD (j - e.1 * 4096) 0 := by
  intro dl
  induction dl with
  | nil =>
    intro r e j he
    cases he
  | cons f rest ih =>
    intro r e j he honly hj1 hj2
    rw [List.mem_cons] at he
    rw [List.foldl_cons]
    by_cases hrest : e ∈ rest
    · exact ih (writeSeg r (f.1 * 4096) f.2) e j hrest
        (fun f' hf' => honly f' (List.mem_cons_of_mem _ hf')) hj1 hj2
    · rcases he with he | he
      · subst he
        rw [foldl_writeSeg_untouched rest (writeSeg r (e.1 * 4096) e.2) j ?out,
          writeSeg_data_in r (e.1 * 4096) e.2 j hj1 hj2]
        case out =>
          intro f' hf'
          rcases honly f' (List.mem_cons_of_mem _ hf') with hfe | hout
          · exact absurd (hfe ▸ hf') hrest
          · exact hout
      · exact absurd he hrest

/-! ### Assembling the encoded buffer -/

lemma ByteBuf.toList_getD (b : ByteBuf) (q : Nat) (h : q < b.size) :
    b.toList.getD q 0 = b.data q := by
  simp [ByteBuf.toList, List.getD_eq_getElem?_getD, h]

lemma write_buf_eq (m : ChunkMap) :
    write_buf m
      = join
          ((update_chunk_locations m).foldl
            (fun b e => set_location b e.1 e.2) (zeroBuf 4096))
          ((update_chunk_locations m).foldl
            (fun b e => set_timestamp b e.1 e.2) (zeroBuf 4096))
          ((update_chunk_locations m).foldl
            (fun d e => dictSet d e.2.location e.2.chunk_data) [])
          ((update_chunk_locations m).foldl
            (fun a e => max a ((e.2.size + e.2.location - 2) * 4096)) 0) := by
  simp only [write_buf]
  rw [writeFold_locations, writeFold_timestamps, writeFold_data_list,
    writeFold_max_pos]

lemma join_size (loc ts : ByteBuf) (dl : List (Nat × List Nat)) (mp : Nat) :
    (join loc ts dl mp).size = loc.size + ts.size + mp := by
  simp only [join]
  rw [foldl_writeSeg_size, writeSeg_size, writeSeg_size]
  rfl

lemma join_data_low (loc ts : ByteBuf) (dl : List (Nat × List Nat)) (mp : Nat)
    (hl : loc.size = 4096) (hdl : ∀ f ∈ dl, 2 ≤ f.1)
    (q : Nat) (hq : q < 4096) :
    (join loc ts dl mp).data q = loc.data q := by
  simp only [join]
  rw [foldl_writeSeg_untouched dl _ q (fun f hf => by have := hdl f hf; omega),
    writeSeg_data_out _ 4096 _ q (by omega),
    writeSeg_data_in _ 0 _ q (by omega)
      (by rw [ByteBuf.toList_length]; omega),
    Nat.sub_zero, ByteBuf.toList_getD loc q (by omega)]

lemma join_data_mid (loc ts : ByteBuf) (dl : List (Nat × List Nat)) (mp : Nat)
    (hl : loc.size = 4096) (ht : ts.size = 4096) (hdl : ∀ f ∈ dl, 2 ≤ f.1)
    (q : Nat) (h1 : 4096 ≤ q) (h2 : q < 8192) :
    (join loc ts dl mp).data q = ts.data (q - 4096) := by
  simp only [join]
  rw [foldl_writeSeg_untouched dl _ q (fun f hf => by have := hdl f hf; omega),
    writeSeg_data_in _ 4096 _ q (by omega)
      (by rw [ByteBuf.toList_length]; omega),
    ByteBuf.toList_getD ts (q - 4096) (by omega)]

lemma join_data_high_zero (loc ts : ByteBuf) (dl : List (Nat × List Nat)) (mp : Nat)
    (hl : loc.size = 4096) (ht : ts.size = 4096) (j : Nat) (hj : 8192 ≤ j)
    (hout : ∀ f ∈ dl, ¬ (f.1 * 4096 ≤ j ∧ j < f.1 * 4096 + f.2.length)) :
    (join loc ts dl mp).data j = 0 := by
  simp only [join]
  rw [foldl_writeSeg_untouched dl _ j hout,
    writeSeg_data_out _ 4096 _ j (by rw [ByteBuf.toList_length]; omega),
    writeSeg_data_out _ 0 _ j (by rw [ByteBuf.toList_length]; omega)]
  rfl

lemma join_data_payload (loc ts : ByteBuf) (dl : List (Nat × List Nat)) (mp : Nat)
    (e : Nat × List Nat) (j : Nat) (he : e ∈ dl)
    (honly : ∀ f ∈ dl, f = e ∨ ¬ (f.1 * 4096 ≤ j ∧ j < f.1 * 4096 + f.2.length))
    (hj1 : e.1 * 4096 ≤ j) (hj2 : j < e.1 * 4096 + e.2.length) :
    (join loc ts dl mp).data j = e.2.getD (j - e.1 * 4096) 0 := by
  simp only [join]
  exact foldl_writeSeg_hit dl _ e j he honly hj1 hj2

lemma foldl_max_commute :
    ∀ (l : List Nat) (a : Nat), l.foldl max a = max a (l.foldr max 0) := by
  intro l
  induction l with
  | nil => intro a; simp
  | cons x xs ih =>
    intro a
    rw [List.foldl_cons, List.foldr_cons, ih (max a x), Nat.max_assoc]

lemma write_max_pos_go :
    ∀ (m' : ChunkMap) (a : Nat),
      m'.foldl (fun a e => max a ((e.2.size + e.2.location - 2) * 4096)) a
        = max a ((m'.map (fun e => (e.2.location + e.2.size - 2) * 4096)).foldr max 0) := by
  intro m'
  induction m' with
  | nil => intro a; simp
  | cons e rest ih =>
    intro a
    rw [List.foldl_cons, List.map_cons, List.foldr_cons, ih, Nat.add_comm e.2.size,
      Nat.max_assoc]

lemma write_max_pos_eq (m' : ChunkMap) :
    m'.foldl (fun a e => max a ((e.2.size + e.2.location - 2) * 4096)) 0
      = maxExtent m' := by
  rw [write_max_pos_go, maxExtent]
  simp

lemma le_foldr_max : ∀ (l : List Nat) (x : Nat), x ∈ l → x ≤ l.foldr max 0 := by
  intro l
  induction l with
  | nil =>
    intro x hx
    cases hx
  | cons y ys ih =>
    intro x hx
    rw [List.mem_cons] at hx
    rw [List.foldr_cons]
    rcases hx with hx | hx
    · subst hx
      exact Nat.le_max_left _ _
    · exact Nat.le_trans (ih x hx) (Nat.le_max_right _ _)

lemma le_maxExtent (m' : ChunkMap) (e : Nat × Chunk) (he : e ∈ m') :
    (e.2.location + e.2.size - 2) * 4096 ≤ maxExtent m' :=
  le_foldr_max _ _ (List.mem_map_of_mem _ he)

/-! ### Facts about `update_chunk_locations` needed for the layout -/

lemma assignLocs_keys :
    ∀ (l : ChunkMap) (addr : Nat),
      (assignLocs addr l).map Prod.fst = l.map Prod.fst := by
  intro l
  induction l with
  | nil => intro addr; rfl
  | cons e rest ih =>
    intro addr
    rw [assignLocs, List.map_cons, List.map_cons, ih]

lemma assignLocs_mem :
    ∀ (l : ChunkMap) (addr : Nat), ∀ f ∈ assignLocs addr l,
      ∃ e ∈ l, f.1 = e.1 ∧ f.2.timestamp = e.2.timestamp
        ∧ f.2.size = e.2.size ∧ f.2.chunk_data = e.2.chunk_data := by
  intro l
  induction l with
  | nil =>
    intro addr f hf
    cases hf
  | cons e rest ih =>
    intro addr f hf
    rw [assignLocs, List.mem_cons] at hf
    rcases hf with hf | hf
    · subst hf
      exact ⟨e, List.mem_cons_self _ _, rfl, rfl, rfl, rfl⟩
    · obtain ⟨e', he', hfe⟩ := ih (addr + e.2.size) f hf
      exact ⟨e', List.mem_cons_of_mem _ he', hfe⟩

lemma sizesBefore_add_le :
    ∀ (m : ChunkMap) (j : Nat) (e : Nat × Chunk), m[j]? = some e →
      sizesBefore m j + e.2.size ≤ totalSizes m := by
  intro m
  induction m with
  | nil =>
    intro j e h
    simp at h
  | cons f rest ih =>
    intro j e h
    cases j with
    | zero =>
      rw [List.getElem?_cons_zero] at h
      obtain rfl : f = e := by injection h
      simp [sizesBefore, totalSizes]
    | succ j =>
      rw [List.getElem?_cons_succ] at h
      have := ih j e h
      simp only [sizesBefore, totalSizes, List.take_succ_cons, List.map_cons,
        List.sum_cons] at *
      omega

lemma chunkMap_length_le (m : ChunkMap)
    (hkey : ∀ e ∈ m, e.1 % 4 = 0 ∧ e.1 ≤ 4092)
    (hnd : (m.map Prod.fst).Nodup) :
    m.length ≤ 1024 := by
  have hsub : (m.map Prod.fst) ⊆ pyRange4 4096 := by
    intro k hk
    obtain ⟨e, he, rfl⟩ := List.mem_map.1 hk
    obtain ⟨h4, hle⟩ := hkey e he
    simp only [pyRange4, List.mem_map, List.mem_range]
    exact ⟨e.1 / 4, by omega, by omega⟩
  have hlen := (List.subperm_of_subset hnd hsub).length_le
  rw [List.length_map] at hlen
  have : (pyRange4 4096).length = 1024 := by
    simp [pyRange4]
  omega

lemma totalSizes_le (m : ChunkMap) (hsz : ∀ e ∈ m, e.2.size ≤ 255) :
    totalSizes m ≤ 255 * m.length := by
  have h := List.sum_le_card_nsmul (m.map (fun e => e.2.size)) 255 ?bound
  · rw [totalSizes]
    simpa [List.length_map, Nat.mul_comm] using h
  case bound =>
    intro x hx
    obtain ⟨e, he, rfl⟩ := List.mem_map.1 hx
    exact hsz e he

lemma update_loc_ub (m : ChunkMap) :
    ∀ f ∈ update_chunk_locations m, f.2.location + f.2.size ≤ 2 + totalSizes m := by
  intro f hf
  obtain ⟨j, hj⟩ := List.mem_iff_getElem?.1 hf
  rw [update_chunk_locations, assignLocs_getElem m 2 j] at hj
  cases hm : m[j]? with
  | none => rw [hm] at hj; cases hj
  | some e =>
    rw [hm] at hj
    obtain rfl : (e.1, { e.2 with location := 2 + sizesBefore m j }) = f := by
      injection hj
    have := sizesBefore_add_le m j e hm
    show 2 + sizesBefore m j + e.2.size ≤ 2 + totalSizes m
    omega

lemma update_mem_props (m : ChunkMap)
    (hsz : ∀ e ∈ m, 1 ≤ e.2.size ∧ e.2.size ≤ 255)
    (hpl : ∀ e ∈ m, e.2.chunk_data.length = e.2.size * 4096) :
    ∀ f ∈ update_chunk_locations m,
      (1 ≤ f.2.size ∧ f.2.size ≤ 255)
      ∧ f.2.chunk_data.length = f.2.size * 4096 := by
  intro f hf
  obtain ⟨e, he, _, _, hs, hd⟩ := assignLocs_mem m 2 f hf
  refine ⟨hs ▸ hsz e he, ?_⟩
  rw [hd, hs]
  exact hpl e he

lemma update_locs_nodup (m : ChunkMap) (hsz : ∀ e ∈ m, 1 ≤ e.2.size) :
    ((update_chunk_locations m).map (fun e => e.2.location)).Nodup := by
  have hp := assignLocs_pairwise m 2 hsz
  rw [List.Nodup, List.pairwise_map]
  exact hp.imp (fun h => by omega)

lemma join_map_payload (loc ts : ByteBuf) (mp : Nat) (m' : ChunkMap)
    (hdisj : ∀ a ∈ m', ∀ b ∈ m', a ≠ b →
      (a.2.location * 4096 + a.2.chunk_data.length ≤ b.2.location * 4096
        ∨ b.2.location * 4096 + b.2.chunk_data.length ≤ a.2.location * 4096))
    (e : Nat × Chunk) (he : e ∈ m') (k : Nat) (hk : k < e.2.chunk_data.length) :
    (join loc ts (m'.map (fun e => (e.2.location, e.2.chunk_data))) mp).data
        (e.2.location * 4096 + k)
      = e.2.chunk_data.getD k 0 := by
  have hmm : (e.2.location, e.2.chunk_data)
      ∈ m'.map (fun e => (e.2.location, e.2.chunk_data)) :=
    List.mem_map_of_mem _ he
  have hres := join_data_payload loc ts
    (m'.map (fun e => (e.2.location, e.2.chunk_data))) mp
    (e.2.location, e.2.chunk_data) (e.2.location * 4096 + k) hmm ?honly
    (Nat.le_add_right _ _)
    (by show e.2.location * 4096 + k < e.2.location * 4096 + e.2.chunk_data.length
        omega)
  · rw [hres]
    show e.2.chunk_data.getD (e.2.location * 4096 + k - e.2.location * 4096) 0 = _
    rw [show e.2.location * 4096 + k - e.2.location * 4096 = k from by omega]
  case honly =>
    intro f hf
    obtain ⟨f0, hf0, rfl⟩ := List.mem_map.1 hf
    by_cases hfe : f0 = e
    · subst hfe
      exact Or.inl rfl
    · refine Or.inr ?_
      show ¬ (f0.2.location * 4096 ≤ e.2.location * 4096 + k
        ∧ e.2.location * 4096 + k < f0.2.location * 4096 + f0.2.chunk_data.length)
      rcases hdisj f0 hf0 e he hfe with h | h <;> omega

lemma update_payload_disjoint (m : ChunkMap)
    (hsz : ∀ e ∈ m, 1 ≤ e.2.size)
    (hlen : ∀ f ∈ update_chunk_locations m,
      f.2.chunk_data.length = f.2.size * 4096) :
    ∀ a ∈ update_chunk_locations m, ∀ b ∈ update_chunk_locations m, a ≠ b →
      (a.2.location * 4096 + a.2.chunk_data.length ≤ b.2.location * 4096
        ∨ b.2.location * 4096 + b.2.chunk_data.length ≤ a.2.location * 4096) := by
  have hp := assignLocs_pairwise m 2 hsz
  have hp2 : (update_chunk_locations m).Pairwise
      (fun a b => a.2.location * 4096 + a.2.chunk_data.length ≤ b.2.location * 4096
        ∨ b.2.location * 4096 + b.2.chunk_data.length ≤ a.2.location * 4096) := by
    refine hp.imp_of_mem (fun ha hb hr => Or.inl ?_)
    rw [hlen _ ha]
    have := hr.1
    omega
  intro a ha b hb hab
  exact hp2.forall (fun x y h => h.symm) ha hb hab

set_option maxRecDepth 100000 in
/-- C6: encode writes a buffer of exactly `8192 + maxExtent` bytes
(`maxExtent` the maximum of `(sectorOffset + sectorCount - 2) * 4096`
over the compacted slots, 0 when empty), places each slot's payload at
absolute byte offset `sectorOffset * 4096`, and zero-fills every byte not
covered by a header entry or a payload; in §8's concrete scenario the
NewestWins merge encodes slot 5 at `sectorOffset 2, sectorCount 2` and
slot 9 at `sectorOffset 4, sectorCount 1`, in exactly 20480 bytes. -/
theorem write_buf_spec (m : ChunkMap)
    (hkey : ∀ e ∈ m, e.1 % 4 = 0 ∧ e.1 ≤ 4092)
    (hnd : (m.map Prod.fst).Nodup)
    (hsz : ∀ e ∈ m, 1 ≤ e.2.size ∧ e.2.size ≤ 255)
    (hpl : ∀ e ∈ m, e.2.chunk_data.length = e.2.size * 4096) :
    ((write_buf m).size = 8192 + maxExtent (update_chunk_locations m))
    ∧ (∀ e ∈ update_chunk_locations m, ∀ k, k < e.2.chunk_data.length →
        (write_buf m).data (e.2.location * 4096 + k) = e.2.chunk_data.getD k 0)
    ∧ (∀ j, 8192 ≤ j → ¬ inPayloadOf (update_chunk_locations m) j →
        (write_buf m).data j = 0)
    ∧ (∀ j, j < 8192 → ¬ inHeaderOf (update_chunk_locations m) j →
        (write_buf m).data j = 0)
    ∧ (update_chunk_locations (merge specBase specIncoming .newestChunks)
        = [(20, ⟨200, 2, 2, List.replicate 8192 2⟩),
           (36, ⟨50, 4, 1, List.replicate 4096 3⟩)]
      ∧ (write_buf (merge specBase specIncoming .newestChunks)).size = 20480) := by
  have hsz1 : ∀ e ∈ m, 1 ≤ e.2.size := fun e he => (hsz e he).1
  have hlen' : ∀ f ∈ update_chunk_locations m,
      f.2.chunk_data.length = f.2.size * 4096 :=
    fun f hf => (update_mem_props m hsz hpl f hf).2
  have hloc2 : ∀ f ∈ update_chunk_locations m, 2 ≤ f.2.location :=
    assignLocs_loc_lb m 2
  have hlocsize :
      ((update_chunk_locations m).foldl
        (fun b e => set_location b e.1 e.2) (zeroBuf 4096)).size = 4096 :=
    foldl_write_size _ set_location_size _ _
  have htssize :
      ((update_chunk_locations m).foldl
        (fun b e => set_timestamp b e.1 e.2) (zeroBuf 4096)).size = 4096 :=
    foldl_write_size _ set_timestamp_size _ _
  have hdl : (update_chunk_locations m).foldl
        (fun d e => dictSet d e.2.location e.2.chunk_data) []
      = (update_chunk_locations m).map (fun e => (e.2.location, e.2.chunk_data)) := by
    rw [foldl_dictSet_append _ [] (fun e _ a ha => absurd ha (List.not_mem_nil a))
      (update_locs_nodup m hsz1)]
    rfl
  refine ⟨?_, ?_, ?_, ?_, ?_, ?_⟩
  · rw [write_buf_eq, join_size, hlocsize, htssize, write_max_pos_eq]
  · intro e he k hk
    rw [write_buf_eq, hdl]
    exact join_map_payload _ _ _ (update_chunk_locations m)
      (update_payload_disjoint m hsz1 hlen') e he k hk
  · intro j hj hout
    rw [write_buf_eq, hdl]
    refine join_data_high_zero _ _ _ _ hlocsize htssize j hj ?_
    intro f hf
    obtain ⟨f0, hf0, rfl⟩ := List.mem_map.1 hf
    intro hcov
    exact hout ⟨f0, hf0, hcov⟩
  · intro j hj hout
    rw [write_buf_eq]
    by_cases hlow : j < 4096
    · rw [join_data_low _ _ _ _ hlocsize ?low2 j hlow]
      · rw [foldl_write4_untouched _ set_location_data_out _ _ j ?nohit]
        · rfl
        case nohit =>
          intro e he hcov
          exact hout ⟨e, he, Or.inl hcov⟩
      case low2 =>
        rw [hdl]
        intro f hf
        obtain ⟨f0, hf0, rfl⟩ := List.mem_map.1 hf
        exact hloc2 f0 hf0
    · rw [join_data_mid _ _ _ _ hlocsize htssize ?mid2 j (by omega) hj]
      · rw [foldl_write4_untouched _ set_timestamp_data_out _ _ (j - 4096) ?nohit]
        · rfl
        case nohit =>
          intro e he hcov
          exact hout ⟨e, he, Or.inr (by omega)⟩
      case mid2 =>
        rw [hdl]
        intro f hf
        obtain ⟨f0, hf0, rfl⟩ := List.mem_map.1 hf
        exact hloc2 f0 hf0
  · rfl
  · rfl

/-- Witness for C6: the encoded size formula evaluated on §8's merged
scenario container. -/
theorem write_buf_spec_witness :
    (write_buf [(20, (⟨200, 2, 2, List.replicate 8192 2⟩ : Chunk)),
                (36, ⟨50, 4, 1, List.replicate 4096 3⟩)]).size
      = 8192 + maxExtent (update_chunk_locations
          [(20, (⟨200, 2, 2, List.replicate 8192 2⟩ : Chunk)),
           (36, ⟨50, 4, 1, List.replicate 4096 3⟩)]) :=
  (write_buf_spec
    [(20, ⟨200, 2, 2, List.replicate 8192 2⟩), (36, ⟨50, 4, 1, List.replicate 4096 3⟩)]
    (by decide) (by decide) (by decide)
    (by
      intro e he
      rw [List.mem_cons, List.mem_singleton] at he
      rcases he with rfl | rfl
      · show (List.replicate 8192 (2 : Nat)).length = 2 * 4096
        rw [List.length_replicate]
      · show (List.replicate 4096 (3 : Nat)).length = 1 * 4096
        rw [List.length_replicate, Nat.one_mul])).1

/-! ### Reading the header bytes back: big-endian word round-trips -/

lemma and255_eq_mod (x : Nat) : x &&& 255 = x % 256 := by
  have h := Nat.and_pow_two_sub_one_eq_mod x 8
  norm_num at h
  exact h

lemma or_eq_add_of_lt (a b M n : Nat) (hM : M = 2 ^ n) (h : b < M) :
    (a * M) ||| b = a * M + b := by
  subst hM
  rw [Nat.mul_comm a (2 ^ n), ← Nat.mul_add_lt_is_or h a]

lemma word32_readback (t : Nat) (h : t < 4294967296) :
    (((((t >>> 24) &&& 255) &&& 255) <<< 24
      ||| ((((t >>> 16) &&& 255) &&& 255) <<< 16))
      ||| ((((t >>> 8) &&& 255) &&& 255) <<< 8))
      ||| ((t &&& 255) &&& 255) = t := by
  simp only [and255_eq_mod, Nat.shiftRight_eq_div_pow, Nat.shiftLeft_eq,
    show (2 : Nat) ^ 24 = 16777216 from by norm_num,
    show (2 : Nat) ^ 16 = 65536 from by norm_num,
    show (2 : Nat) ^ 8 = 256 from by norm_num]
  set a := t / 16777216 % 256 % 256 with ha
  set b := t / 65536 % 256 % 256 with hb
  set c := t / 256 % 256 % 256 with hc
  set d := t % 256 % 256 with hd
  rw [or_eq_add_of_lt a (b * 65536) 16777216 24 (by norm_num) (by omega),
    show a * 16777216 + b * 65536 = (a * 256 + b) * 65536 from by ring,
    or_eq_add_of_lt (a * 256 + b) (c * 256) 65536 16 (by norm_num) (by omega),
    show (a * 256 + b) * 65536 + c * 256 = ((a * 256 + b) * 256 + c) * 256 from by ring,
    or_eq_add_of_lt ((a * 256 + b) * 256 + c) d 256 8 (by norm_num) (by omega)]
  omega

lemma word24_readback (l : Nat) (h : l < 16777216) :
    ((((l >>> 16) &&& 255) &&& 255) <<< 16
      ||| ((((l >>> 8) &&& 255) &&& 255) <<< 8))
      ||| ((l &&& 255) &&& 255) = l := by
  simp only [and255_eq_mod, Nat.shiftRight_eq_div_pow, Nat.shiftLeft_eq,
    show (2 : Nat) ^ 16 = 65536 from by norm_num,
    show (2 : Nat) ^ 8 = 256 from by norm_num]
  set a := l / 65536 % 256 % 256 with ha
  set b := l / 256 % 256 % 256 with hb
  set c := l % 256 % 256 with hc
  rw [or_eq_add_of_lt a (b * 256) 65536 16 (by norm_num) (by omega),
    show a * 65536 + b * 256 = (a * 256 + b) * 256 from by ring,
    or_eq_add_of_lt (a * 256 + b) c 256 8 (by norm_num) (by omega)]
  omega

lemma and255_small (x : Nat) (h : x ≤ 255) : (x &&& 255) &&& 255 = x := by
  rw [and255_eq_mod, and255_eq_mod]
  omega

/-! ### Byte-level view of the encoded buffer -/

lemma write_buf_size_eq (m : ChunkMap) :
    (write_buf m).size = 8192 + maxExtent (update_chunk_locations m) := by
  rw [write_buf_eq, join_size, foldl_write_size _ set_location_size,
    foldl_write_size _ set_timestamp_size, write_max_pos_eq]
  show 4096 + 4096 + _ = _
  omega

lemma write_buf_dl (m : ChunkMap) (hsz1 : ∀ e ∈ m, 1 ≤ e.2.size) :
    (update_chunk_locations m).foldl
        (fun d e => dictSet d e.2.location e.2.chunk_data) []
      = (update_chunk_locations m).map (fun e => (e.2.location, e.2.chunk_data)) := by
  rw [foldl_dictSet_append _ [] (fun e _ a ha => absurd ha (List.not_mem_nil a))
    (update_locs_nodup m hsz1)]
  rfl

lemma write_buf_payload_at (m : ChunkMap)
    (hsz1 : ∀ e ∈ m, 1 ≤ e.2.size)
    (hlen' : ∀ f ∈ update_chunk_locations m,
      f.2.chunk_data.length = f.2.size * 4096)
    (e : Nat × Chunk) (he : e ∈ update_chunk_locations m) (k : Nat)
    (hk : k < e.2.chunk_data.length) :
    (write_buf m).data (e.2.location * 4096 + k) = e.2.chunk_data.getD k 0 := by
  rw [write_buf_eq, write_buf_dl m hsz1]
  exact join_map_payload _ _ _ (update_chunk_locations m)
    (update_payload_disjoint m hsz1 hlen') e he k hk

lemma write_buf_loc_entry (m : ChunkMap)
    (hkey' : ∀ f ∈ update_chunk_locations m, f.1 % 4 = 0 ∧ f.1 ≤ 4092)
    (hnd' : ((update_chunk_locations m).map Prod.fst).Nodup)
    (hsz1 : ∀ e ∈ m, 1 ≤ e.2.size)
    (e : Nat × Chunk) (he : e ∈ update_chunk_locations m) (off : Nat)
    (hoff : off < 4) :
    (write_buf m).data (e.1 + off) = locByteAt e.2 off := by
  rw [write_buf_eq, write_buf_dl m hsz1]
  rw [join_data_low _ _ _ _ (foldl_write_size _ set_location_size _ _) ?floor
    (e.1 + off) (by have := hkey' e he; omega)]
  · rw [foldl_write4_hit set_location locByteAt set_location_data_out
      set_location_data_in (update_chunk_locations m) (zeroBuf 4096) e (e.1 + off)
      (fun f hf => (hkey' f hf).1) hnd' he (by omega) (by omega),
      show e.1 + off - e.1 = off from by omega]
  case floor =>
    intro f hf
    obtain ⟨f0, hf0, rfl⟩ := List.mem_map.1 hf
    exact assignLocs_loc_lb m 2 f0 hf0

lemma write_buf_ts_entry (m : ChunkMap)
    (hkey' : ∀ f ∈ update_chunk_locations m, f.1 % 4 = 0 ∧ f.1 ≤ 4092)
    (hnd' : ((update_chunk_locations m).map Prod.fst).Nodup)
    (hsz1 : ∀ e ∈ m, 1 ≤ e.2.size)
    (e : Nat × Chunk) (he : e ∈ update_chunk_locations m) (off : Nat)
    (hoff : off < 4) :
    (write_buf m).data (4096 + e.1 + off) = tsByteAt e.2 off := by
  rw [write_buf_eq, write_buf_dl m hsz1]
  rw [join_data_mid _ _ _ _ (foldl_write_size _ set_location_size _ _)
    (foldl_write_size _ set_timestamp_size _ _) ?floor
    (4096 + e.1 + off) (by omega) (by have := hkey' e he; omega)]
  · rw [show 4096 + e.1 + off - 4096 = e.1 + off from by omega]
    rw [foldl_write4_hit set_timestamp tsByteAt set_timestamp_data_out
      set_timestamp_data_in (update_chunk_locations m) (zeroBuf 4096) e (e.1 + off)
      (fun f hf => (hkey' f hf).1) hnd' he (by omega) (by omega),
      show e.1 + off - e.1 = off from by omega]
  case floor =>
    intro f hf
    obtain ⟨f0, hf0, rfl⟩ := List.mem_map.1 hf
    exact assignLocs_loc_lb m 2 f0 hf0

lemma write_buf_loc_gap (m : ChunkMap) (hsz1 : ∀ e ∈ m, 1 ≤ e.2.size)
    (q : Nat) (hq : q < 4096)
    (hgap : ∀ f ∈ update_chunk_locations m, ¬ (f.1 ≤ q ∧ q < f.1 + 4)) :
    (write_buf m).data q = 0 := by
  rw [write_buf_eq, write_buf_dl m hsz1]
  rw [join_data_low _ _ _ _ (foldl_write_size _ set_location_size _ _) ?floor q hq]
  · rw [foldl_write4_untouched set_location set_location_data_out
      (update_chunk_locations m) (zeroBuf 4096) q hgap]
    rfl
  case floor =>
    intro f hf
    obtain ⟨f0, hf0, rfl⟩ := List.mem_map.1 hf
    exact assignLocs_loc_lb m 2 f0 hf0

lemma mem_of_lookup_eq_some {l : ChunkMap} {k : Nat} {v : Chunk}
    (h : List.lookup k l = some v) : (k, v) ∈ l := by
  obtain ⟨l1, l2, rfl, -⟩ := List.lookup_eq_some_iff.1 h
  simp

lemma list_eq_of_length_getD (l1 l2 : List Nat) (hlen : l1.length = l2.length)
    (h : ∀ k, k < l1.length → l1.getD k 0 = l2.getD k 0) : l1 = l2 := by
  refine List.ext_getElem hlen (fun i h1 h2 => ?_)
  have := h i h1
  rwa [List.getD_eq_getElem l1 0 h1, List.getD_eq_getElem l2 0 h2] at this

lemma payload_slice_data (arr : ByteBuf) (l sz : Nat) (h2 : 2 ≤ l)
    (hfit : (l + sz - 2) * 4096 ≤ arr.size) (k : Nat) :
    (pySlice arr (((l : Int) - 2) * 4096)
      (((l : Int) + (sz : Int) - 2) * 4096)).data k
      = arr.data ((l - 2) * 4096 + k) := by
  show arr.data (sliceIdx arr.size (((l : Int) - 2) * 4096) + k) = _
  congr 1
  unfold sliceIdx
  split_ifs <;> omega

lemma locByteAt_0 (c : Chunk) : locByteAt c 0 = (c.location >>> 16) &&& 255 := rfl
lemma locByteAt_1 (c : Chunk) : locByteAt c 1 = (c.location >>> 8) &&& 255 := rfl
lemma locByteAt_2 (c : Chunk) : locByteAt c 2 = c.location &&& 255 := rfl
lemma locByteAt_3 (c : Chunk) : locByteAt c 3 = c.size &&& 255 := rfl
lemma tsByteAt_0 (c : Chunk) : tsByteAt c 0 = (c.timestamp >>> 24) &&& 255 := rfl
lemma tsByteAt_1 (c : Chunk) : tsByteAt c 1 = (c.timestamp >>> 16) &&& 255 := rfl
lemma tsByteAt_2 (c : Chunk) : tsByteAt c 2 = (c.timestamp >>> 8) &&& 255 := rfl
lemma tsByteAt_3 (c : Chunk) : tsByteAt c 3 = c.timestamp &&& 255 := rfl

lemma decodeStep_readback (m : ChunkMap)
    (hkey : ∀ e ∈ m, e.1 % 4 = 0 ∧ e.1 ≤ 4092)
    (hnd : (m.map Prod.fst).Nodup)
    (hsz : ∀ e ∈ m, 1 ≤ e.2.size ∧ e.2.size ≤ 255)
    (hpl : ∀ e ∈ m, e.2.chunk_data.length = e.2.size * 4096)
    (hts : ∀ e ∈ m, e.2.timestamp < 4294967296)
    (i : Nat) (hi4 : i % 4 = 0) (hile : i ≤ 4092) (acc : ChunkMap) :
    decodeStep (pySlice (write_buf m) 0 4096) (pySlice (write_buf m) 4096 8192)
        (pySlice (write_buf m) 8192 (write_buf m).size) acc i
      = some (acc ++ (entryAt (update_chunk_locations m) i).toList) := by
  have hsz1 : ∀ e ∈ m, 1 ≤ e.2.size := fun e he => (hsz e he).1
  have hkey' : ∀ f ∈ update_chunk_locations m, f.1 % 4 = 0 ∧ f.1 ≤ 4092 := by
    intro f hf
    obtain ⟨e, he, hfe, -, -, -⟩ := assignLocs_mem m 2 f hf
    exact hfe ▸ hkey e he
  have hnd' : ((update_chunk_locations m).map Prod.fst).Nodup := by
    rw [update_chunk_locations, assignLocs_keys]
    exact hnd
  have hprops := update_mem_props m hsz hpl
  have hlen' : ∀ f ∈ update_chunk_locations m,
      f.2.chunk_data.length = f.2.size * 4096 := fun f hf => (hprops f hf).2
  have hts' : ∀ f ∈ update_chunk_locations m, f.2.timestamp < 4294967296 := by
    intro f hf
    obtain ⟨e, he, -, hfts, -, -⟩ := assignLocs_mem m 2 f hf
    exact hfts ▸ hts e he
  have hloc2 : ∀ f ∈ update_chunk_locations m, 2 ≤ f.2.location :=
    assignLocs_loc_lb m 2
  have hlocub : ∀ f ∈ update_chunk_locations m,
      f.2.location + f.2.size ≤ 261122 := by
    intro f hf
    have h1 := update_loc_ub m f hf
    have h2 := totalSizes_le m (fun e he => (hsz e he).2)
    have h3 := chunkMap_length_le m hkey hnd
    have h4 : 255 * m.length ≤ 255 * 1024 := Nat.mul_le_mul_left 255 h3
    omega
  have hB8 : 8192 ≤ (write_buf m).size := by
    rw [write_buf_size_eq]
    omega
  have hminB : min 4096 (write_buf m).size = 4096 := by omega
  have hmin8 : min 8192 (write_buf m).size = 8192 := by omega
  have htsS : (pySlice (write_buf m) 4096 8192).size = 4096 := by
    rw [slice_ts_size]
    omega
  have hlocS : (pySlice (write_buf m) 0 4096).size = 4096 := by
    rw [slice_loc_size]
    omega
  rw [decodeStep_eval _ _ _ acc i (by rw [htsS]; omega) (by rw [hlocS]; omega)]
  cases hlook : List.lookup i (update_chunk_locations m) with
  | some c =>
    have hec : (i, c) ∈ update_chunk_locations m := mem_of_lookup_eq_some hlook
    have hl0 : (write_buf m).data i = (c.location >>> 16) &&& 255 := by
      have h := write_buf_loc_entry m hkey' hnd' hsz1 (i, c) hec 0 (by omega)
      simpa [locByteAt_0] using h
    have hl1 : (write_buf m).data (i + 1) = (c.location >>> 8) &&& 255 := by
      have h := write_buf_loc_entry m hkey' hnd' hsz1 (i, c) hec 1 (by omega)
      simpa [locByteAt_1] using h
    have hl2 : (write_buf m).data (i + 2) = c.location &&& 255 := by
      have h := write_buf_loc_entry m hkey' hnd' hsz1 (i, c) hec 2 (by omega)
      simpa [locByteAt_2] using h
    have hl3 : (write_buf m).data (i + 3) = c.size &&& 255 := by
      have h := write_buf_loc_entry m hkey' hnd' hsz1 (i, c) hec 3 (by omega)
      simpa [locByteAt_3] using h
    have ht0 : (write_buf m).data (4096 + i) = (c.timestamp >>> 24) &&& 255 := by
      have h := write_buf_ts_entry m hkey' hnd' hsz1 (i, c) hec 0 (by omega)
      simpa [tsByteAt_0] using h
    have ht1 : (write_buf m).data (4096 + (i + 1)) = (c.timestamp >>> 16) &&& 255 := by
      have h := write_buf_ts_entry m hkey' hnd' hsz1 (i, c) hec 1 (by omega)
      rw [show 4096 + (i + 1) = 4096 + i + 1 from by omega]
      simpa [tsByteAt_1] using h
    have ht2 : (write_buf m).data (4096 + (i + 2)) = (c.timestamp >>> 8) &&& 255 := by
      have h := write_buf_ts_entry m hkey' hnd' hsz1 (i, c) hec 2 (by omega)
      rw [show 4096 + (i + 2) = 4096 + i + 2 from by omega]
      simpa [tsByteAt_2] using h
    have ht3 : (write_buf m).data (4096 + (i + 3)) = c.timestamp &&& 255 := by
      have h := write_buf_ts_entry m hkey' hnd' hsz1 (i, c) hec 3 (by omega)
      rw [show 4096 + (i + 3) = 4096 + i + 3 from by omega]
      simpa [tsByteAt_3] using h
    simp only [slice_loc_data, slice_ts_data, hminB]
    simp only [hl0, hl1, hl2, hl3, ht0, ht1, ht2, ht3]
    rw [and255_small c.size (hprops (i, c) hec).1.2,
      word32_readback c.timestamp (hts' (i, c) hec),
      word24_readback c.location (by
        have hub : c.location + c.size ≤ 261122 := hlocub (i, c) hec
        omega),
      if_neg (show ¬ c.size = 0 from by
        have h1 : 1 ≤ c.size := (hprops (i, c) hec).1.1
        omega)]
    have harrS : (pySlice (write_buf m) 8192 ((write_buf m).size : Int)).size
        = maxExtent (update_chunk_locations m) := by
      rw [slice_tail_size, write_buf_size_eq]
      omega
    have hl2c : 2 ≤ c.location := hloc2 (i, c) hec
    have hlenc : c.chunk_data.length = c.size * 4096 := hlen' (i, c) hec
    have hfit : (c.location + c.size - 2) * 4096
        ≤ (pySlice (write_buf m) 8192 ((write_buf m).size : Int)).size := by
      rw [harrS]
      exact le_maxExtent _ (i, c) hec
    have hdata_eq :
        (pySlice (pySlice (write_buf m) 8192 ((write_buf m).size : Int))
          (((c.location : Int) - 2) * 4096)
          (((c.location : Int) + (c.size : Int) - 2) * 4096)).toList
        = c.chunk_data := by
      have hslen :
          (pySlice (pySlice (write_buf m) 8192 ((write_buf m).size : Int))
            (((c.location : Int) - 2) * 4096)
            (((c.location : Int) + (c.size : Int) - 2) * 4096)).size
          = c.size * 4096 :=
        payload_slice_size_eq _ _ _ hl2c hfit
      refine list_eq_of_length_getD _ _ ?_ ?_
      · rw [ByteBuf.toList_length, hslen, hlenc]
      · intro k hk
        rw [ByteBuf.toList_length, hslen] at hk
        rw [ByteBuf.toList_getD _ k (by rw [hslen]; exact hk),
          payload_slice_data _ _ _ hl2c hfit k, slice_tail_data, hmin8,
          show 8192 + ((c.location - 2) * 4096 + k) = c.location * 4096 + k
            from by omega]
        exact write_buf_payload_at m hsz1 hlen' (i, c) hec k (by rw [hlenc]; exact hk)
    rw [hdata_eq, entryAt, hlook]
    rfl
  | none =>
    have hgap : ∀ f ∈ update_chunk_locations m,
        ¬ (f.1 ≤ i + 3 ∧ i + 3 < f.1 + 4) := by
      intro f hf hcov
      have h4 := (hkey' f hf).1
      have hfi : f.1 = i := by omega
      refine (lookup_none_iff_keys _ i).1 hlook ?_
      exact hfi ▸ List.mem_map_of_mem Prod.fst hf
    have hz : (write_buf m).data (i + 3) = 0 :=
      write_buf_loc_gap m hsz1 (i + 3) (by omega) hgap
    simp only [slice_loc_data, slice_ts_data, hminB, hz]
    rw [show (0 : Nat) &&& 255 = 0 from rfl, if_pos rfl, entryAt, hlook]
    simp

lemma decodeLoop_readback (m : ChunkMap)
    (hkey : ∀ e ∈ m, e.1 % 4 = 0 ∧ e.1 ≤ 4092)
    (hnd : (m.map Prod.fst).Nodup)
    (hsz : ∀ e ∈ m, 1 ≤ e.2.size ∧ e.2.size ≤ 255)
    (hpl : ∀ e ∈ m, e.2.chunk_data.length = e.2.size * 4096)
    (hts : ∀ e ∈ m, e.2.timestamp < 4294967296) :
    ∀ (il : List Nat), (∀ i ∈ il, i % 4 = 0 ∧ i ≤ 4092) → ∀ (acc : ChunkMap),
      decodeLoop (pySlice (write_buf m) 0 4096) (pySlice (write_buf m) 4096 8192)
          (pySlice (write_buf m) 8192 (write_buf m).size) il acc
        = some (acc ++ il.filterMap (entryAt (update_chunk_locations m))) := by
  intro il
  induction il with
  | nil =>
    intro _ acc
    simp [decodeLoop]
  | cons j rest ih =>
    intro hil acc
    obtain ⟨hj4, hjle⟩ := hil j (List.mem_cons_self _ _)
    have hstep := decodeStep_readback m hkey hnd hsz hpl hts j hj4 hjle acc
    have h1 : decodeLoop (pySlice (write_buf m) 0 4096)
          (pySlice (write_buf m) 4096 8192)
          (pySlice (write_buf m) 8192 (write_buf m).size) (j :: rest) acc
        = decodeLoop (pySlice (write_buf m) 0 4096)
            (pySlice (write_buf m) 4096 8192)
            (pySlice (write_buf m) 8192 (write_buf m).size) rest
            (acc ++ (entryAt (update_chunk_locations m) j).toList) := by
      show (match decodeStep (pySlice (write_buf m) 0 4096)
              (pySlice (write_buf m) 4096 8192)
              (pySlice (write_buf m) 8192 (write_buf m).size) acc j with
            | none => none
            | some m' =>
              decodeLoop (pySlice (write_buf m) 0 4096)
                (pySlice (write_buf m) 4096 8192)
                (pySlice (write_buf m) 8192 (write_buf m).size) rest m') = _
      rw [hstep]
    rw [h1, ih (fun i hi => hil i (List.mem_cons_of_mem _ hi)) _,
      List.filterMap_cons]
    cases entryAt (update_chunk_locations m) j <;> simp

lemma lookup_of_mem_nodup :
    ∀ (l : ChunkMap), (l.map Prod.fst).Nodup → ∀ e ∈ l,
      List.lookup e.1 l = some e.2 := by
  intro l
  induction l with
  | nil =>
    intro _ e he
    cases he
  | cons f rest ih =>
    intro hnd e he
    rw [List.map_cons, List.nodup_cons] at hnd
    rw [List.mem_cons] at he
    rw [lookup_cons_pair]
    rcases he with he | he
    · subst he
      rw [if_pos rfl]
    · rw [if_neg, ih hnd.2 e he]
      intro heq
      exact hnd.1 (heq ▸ List.mem_map_of_mem Prod.fst he)

lemma assignLocs_triples :
    ∀ (l : ChunkMap) (addr : Nat),
      (assignLocs addr l).map chunkTriple = l.map chunkTriple := by
  intro l
  induction l with
  | nil => intro addr; rfl
  | cons e rest ih =>
    intro addr
    rw [assignLocs, List.map_cons, List.map_cons, ih]
    rfl

/-- C3: decoding an encoded Container yields exactly the same set of
`(slotIndex, timestamp, payload)` triples (slot indices being the 4-byte
location-table offsets used as `chunk_map` keys): no slot is added or
dropped and no timestamp or payload is altered, although `sectorOffset`
values are renumbered by compaction. -/
theorem decode_encode_roundtrip (m : ChunkMap)
    (hkey : ∀ e ∈ m, e.1 % 4 = 0 ∧ e.1 ≤ 4092)
    (hnd : (m.map Prod.fst).Nodup)
    (hsz : ∀ e ∈ m, 1 ≤ e.2.size ∧ e.2.size ≤ 255)
    (hpl : ∀ e ∈ m, e.2.chunk_data.length = e.2.size * 4096)
    (hts : ∀ e ∈ m, e.2.timestamp < 4294967296) :
    ∃ d, read_file (write_buf m) = some d
      ∧ ∀ x, x ∈ d.map chunkTriple ↔ x ∈ m.map chunkTriple := by
  have hkey' : ∀ f ∈ update_chunk_locations m, f.1 % 4 = 0 ∧ f.1 ≤ 4092 := by
    intro f hf
    obtain ⟨e, he, hfe, -, -, -⟩ := assignLocs_mem m 2 f hf
    exact hfe ▸ hkey e he
  have hnd' : ((update_chunk_locations m).map Prod.fst).Nodup := by
    rw [update_chunk_locations, assignLocs_keys]
    exact hnd
  have hproj : (update_chunk_locations m).map chunkTriple = m.map chunkTriple :=
    assignLocs_triples m 2
  have hlocS : (pySlice (write_buf m) 0 4096).size = 4096 := by
    rw [slice_loc_size, write_buf_size_eq]
    omega
  have hread : read_file (write_buf m)
      = some ((pyRange4 4096).filterMap (entryAt (update_chunk_locations m))) := by
    rw [read_file_eq, hlocS,
      decodeLoop_readback m hkey hnd hsz hpl hts (pyRange4 4096) ?keys []]
    · rw [List.nil_append]
    case keys =>
      intro i hi
      simp only [pyRange4, List.mem_map, List.mem_range] at hi
      obtain ⟨k, hk, rfl⟩ := hi
      omega
  refine ⟨(pyRange4 4096).filterMap (entryAt (update_chunk_locations m)), hread, ?_⟩
  intro x
  constructor
  · intro hx
    obtain ⟨e, he, rfl⟩ := List.mem_map.1 hx
    obtain ⟨i, _, hei⟩ := List.mem_filterMap.1 he
    rw [entryAt] at hei
    obtain ⟨c, hlook, rfl⟩ := Option.map_eq_some'.1 hei
    rw [← hproj]
    exact List.mem_map_of_mem _ (mem_of_lookup_eq_some hlook)
  · intro hx
    rw [← hproj] at hx
    obtain ⟨e, he, rfl⟩ := List.mem_map.1 hx
    have hl : List.lookup e.1 (update_chunk_locations m) = some e.2 :=
      lookup_of_mem_nodup _ hnd' e he
    have hi : e.1 ∈ pyRange4 4096 := by
      simp only [pyRange4, List.mem_map, List.mem_range]
      obtain ⟨h4, hle⟩ := hkey' e he
      exact ⟨e.1 / 4, by omega, by omega⟩
    have hentry : entryAt (update_chunk_locations m) e.1 = some (e.1, e.2) := by
      rw [entryAt, hl]
      rfl
    exact List.mem_map.2 ⟨(e.1, e.2), List.mem_filterMap.2 ⟨e.1, hi, hentry⟩, rfl⟩

/-- Witness for C3 at a one-slot container with a stale `sectorOffset`. -/
theorem decode_encode_roundtrip_witness :
    ∃ d, read_file (write_buf [(0, (⟨7, 9, 1, List.replicate 4096 5⟩ : Chunk))])
        = some d
      ∧ ∀ x, x ∈ d.map chunkTriple
          ↔ x ∈ [(0, (⟨7, 9, 1, List.replicate 4096 5⟩ : Chunk))].map chunkTriple :=
  decode_encode_roundtrip [(0, ⟨7, 9, 1, List.replicate 4096 5⟩)]
    (by decide) (by decide) (by decide)
    (by
      intro e he
      rw [List.mem_singleton] at he
      subst he
      show (List.replicate 4096 (5 : Nat)).length = 1 * 4096
      rw [List.length_replicate, Nat.one_mul])
    (by decide)

end McMerge
